import Mathlib

/-!
Verification of the noah-cli catalog core against its specification.

This file shallowly embeds the Python source of noah-cli:
  * `src/noah_cli/models/data.py`   — the catalog data model,
  * `src/noah_cli/models/config.py` — the `Data` container,
  * `src/noah_cli/core/config.py`   — `ConfigManager.add_data` / `remove_data` / `find_data` / `load`,
  * `src/noah_cli/core/file.py`     — `DataManager.check_files`,
  * `src/noah_cli/core/network.py`  — `NetworkClient.fetch_file`,
  * `src/noah_cli/helpers/database.py` — run-accession URL derivation,
  * `src/noah_cli/helpers/common.py`   — `sanitize_string`, `combine_name`, `iter_data`, path helpers.

Python strings are modelled as `List Char` (Python indexes strings by code point);
character case predicates and case mapping are modelled with their ASCII meaning,
which agrees with Python on the ASCII data these functions are applied to.
Filesystem and network effects are modelled by explicit oracle parameters.
-/

namespace Noah

/-- Code points of a Lean string literal; used to write embedded Python strings. -/
def str (s : String) : List Char := s.data

/-- Python string truthiness for `str | None` values: `None` and `""` are falsy. -/
def pyTruthy : Option (List Char) → Bool
  | none => false
  | some s => decide (s ≠ [])

/-! ### Generic list helpers

`updateFirst`, `removeFirst` and `dropOrReplace` capture the effect of Python's
in-place mutation of the node returned by a `__getitem__` lookup (always the
first node with the queried name), of `list.remove`, and of a conditional
`list.remove` of an emptied, just-mutated node. -/

/-- Replace the first element satisfying `p` by its image under `f`. -/
def updateFirst (p : α → Bool) (f : α → α) : List α → List α
  | [] => []
  | a :: as => if p a then f a :: as else a :: updateFirst p f as

/-- Remove the first element satisfying `p` (Python `list.remove`). -/
def removeFirst (p : α → Bool) : List α → List α
  | [] => []
  | a :: as => if p a then as else a :: removeFirst p as

/-- At the first element satisfying `p`: replace it by `f a`, or drop it when `f a = none`. -/
def dropOrReplace (p : α → Bool) (f : α → Option α) : List α → List α
  | [] => []
  | a :: as =>
    if p a then
      match f a with
      | some a' => a' :: as
      | none => as
    else a :: dropOrReplace p f as

/-! ### Enumerations (`models/data.py`)

The Python enums are `str`-valued; the tree nodes store the plain string and the
`.enum` properties re-parse it, raising `ValueError` outside the vocabulary
(modelled by `Option`). -/

/-- `EType` — the type of the sequencing library. -/
inductive EType where
  | chip
  | chipInput
  | rna
deriving DecidableEq, Repr

/-- The string value of an `EType` member. -/
def EType.value : EType → List Char
  | .chip => str "chip"
  | .chipInput => str "chip-input"
  | .rna => str "rna"

/-- `EType(s)`: look the string up in the closed vocabulary (`ValueError` ↦ `none`). -/
def EType.parse (s : List Char) : Option EType :=
  if s = str "chip" then some .chip
  else if s = str "chip-input" then some .chipInput
  else if s = str "rna" then some .rna
  else none

/-- `EPhase` — the phase of the pipeline that the file should be used in. -/
inductive EPhase where
  | raw
deriving DecidableEq, Repr

/-- The string value of an `EPhase` member. -/
def EPhase.value : EPhase → List Char
  | .raw => str "raw"

/-- `EPhase(s)`: look the string up in the closed vocabulary (`ValueError` ↦ `none`). -/
def EPhase.parse (s : List Char) : Option EPhase :=
  if s = str "raw" then some .raw else none

/-- `ESource` — the type of source for the file. -/
inductive ESource where
  | aspera
  | ftp
  | http
  | local
  | ssh
deriving DecidableEq, Repr

/-- The string value of an `ESource` member. -/
def ESource.value : ESource → List Char
  | .aspera => str "aspera"
  | .ftp => str "ftp"
  | .http => str "http"
  | .local => str "local"
  | .ssh => str "ssh"

/-- `ESource(s)`: look the string up in the closed vocabulary (`ValueError` ↦ `none`). -/
def ESource.parse (s : List Char) : Option ESource :=
  if s = str "aspera" then some .aspera
  else if s = str "ftp" then some .ftp
  else if s = str "http" then some .http
  else if s = str "local" then some .local
  else if s = str "ssh" then some .ssh
  else none

/-! ### Catalog data model (`models/data.py`, `models/config.py`) -/

/-- `Source` — a file source: transport kind stored as plain string, plus location. -/
structure Source where
  type : List Char
  value : List Char
deriving DecidableEq, Repr

/-- `Source.enum`: `ESource(self.type)`; raises (`none`) outside the vocabulary. -/
def Source.enum (s : Source) : Option ESource := ESource.parse s.type

/-- `File` — optional checksum plus sources. -/
structure File where
  checksum : Option (List Char) := none
  sources : List Source := []
deriving DecidableEq, Repr

/-- `Phase` — tree node: phase string, optional identifier, files. -/
structure Phase where
  phase : List Char
  identifier : Option (List Char) := none
  files : List File := []
deriving DecidableEq, Repr

/-- `Phase.enum`: `EPhase(self.phase)`. -/
def Phase.enum (p : Phase) : Option EPhase := EPhase.parse p.phase

/-- `Type` — tree node (named `TypeNode` because `Type` is reserved in Lean). -/
structure TypeNode where
  type : List Char
  phases : List Phase
deriving DecidableEq, Repr

/-- `Type.__getitem__`: first phase with the given phase string, else `None`. -/
def TypeNode.getPhase (t : TypeNode) (item : List Char) : Option Phase :=
  t.phases.find? fun p => p.phase = item

/-- `Type.enum`: `EType(self.type)`. -/
def TypeNode.enum (t : TypeNode) : Option EType := EType.parse t.type

/-- `Experiment` — tree node. -/
structure Experiment where
  experiment : List Char
  types : List TypeNode
deriving DecidableEq, Repr

/-- `Experiment.__getitem__`: first type with the given type string, else `None`. -/
def Experiment.getType (e : Experiment) (item : List Char) : Option TypeNode :=
  e.types.find? fun t => t.type = item

/-- `Project` — tree node. -/
structure Project where
  project : List Char
  experiments : List Experiment
deriving DecidableEq, Repr

/-- `Project.__getitem__`: first experiment with the given name, else `None`. -/
def Project.getExperiment (p : Project) (item : List Char) : Option Experiment :=
  p.experiments.find? fun e => e.experiment = item

/-- `Data` (`models/config.py`) — the list of projects owned by the catalog. -/
abbrev Data := List Project

/-- `Data.__getitem__` with a string key: first project with the given name, else `None`. -/
def Data.getProject (d : Data) (item : List Char) : Option Project :=
  d.find? fun p => p.project = item

/-- `Entry` — denormalized view of one (project, experiment, type, phase) path. -/
structure Entry where
  project : Option (List Char) := none
  experiment : Option (List Char) := none
  type : Option EType := none
  phase : Option EPhase := none
  identifier : Option (List Char) := none
  files : List File := []
deriving DecidableEq, Repr

/-- `Entry.__eq__` / `__hash__` identity: the four path components only. -/
def Entry.pathEq (a b : Entry) : Bool :=
  decide (a.project = b.project) && decide (a.experiment = b.experiment)
    && decide (a.type = b.type) && decide (a.phase = b.phase)

/-- An entry is complete when all four path components are present.
`add_data`/`remove_data` are only ever called on complete entries; on
incomplete ones the Python code raises `TypeError`/`AttributeError` in the
lookup or node-construction expressions. -/
def Entry.complete (e : Entry) : Prop :=
  e.project.isSome ∧ e.experiment.isSome ∧ e.type.isSome ∧ e.phase.isSome

instance (e : Entry) : Decidable e.complete := by
  unfold Entry.complete
  infer_instance

/-- The full path key of a complete entry, at the string level of the tree nodes. -/
def Entry.key (e : Entry) : List Char × List Char × List Char × List Char :=
  (e.project.getD [], e.experiment.getD [], (e.type.map EType.value).getD [],
    (e.phase.map EPhase.value).getD [])

/-- A path key: project name, experiment name, type string, phase string. -/
abbrev Key := List Char × List Char × List Char × List Char

/-- Look a full path up in the tree, mirroring the nested `__getitem__` chain. -/
def findPhaseNode (d : Data) (k : Key) : Option Phase :=
  match d.getProject k.1 with
  | none => none
  | some proj =>
    match proj.getExperiment k.2.1 with
    | none => none
    | some exp =>
      match exp.getType k.2.2.1 with
      | none => none
      | some ty => ty.getPhase k.2.2.2

/-- The type node on a path, if present. -/
def findTypeNode (d : Data) (p x ts : List Char) : Option TypeNode :=
  match d.getProject p with
  | none => none
  | some proj =>
    match proj.getExperiment x with
    | none => none
    | some exp => exp.getType ts

/-- The experiment node on a path, if present. -/
def findExperimentNode (d : Data) (p x : List Char) : Option Experiment :=
  match d.getProject p with
  | none => none
  | some proj => proj.getExperiment x

/-! ### `ConfigManager.add_data` (`core/config.py`) -/

/-- How a single `add_data` iteration ends. -/
inductive AddErr where
  | duplicate
  | notComplete
deriving DecidableEq, Repr

/-- One iteration of the `add_data` loop: descend and create `Project → Experiment
→ Type` nodes as needed; a pre-existing terminal `Phase` is a duplicate-entry
error (`print_error` + `Exit(1)`). Incomplete entries are modelled as
`.notComplete` (Python raises in the lookup/construction expressions). -/
def addOne (d : Data) (e : Entry) : Except AddErr Data :=
  match e.project, e.experiment, e.type, e.phase with
  | some p, some x, some t, some ph =>
    let newPhase : Phase := { phase := ph.value, identifier := e.identifier, files := e.files }
    match d.getProject p with
    | some proj =>
      match proj.getExperiment x with
      | some exp =>
        match exp.getType t.value with
        | some ty =>
          match ty.getPhase ph.value with
          | some _ => .error .duplicate
          | none =>
            let updTy : TypeNode → TypeNode := fun tn => { tn with phases := tn.phases ++ [newPhase] }
            let updEx : Experiment → Experiment := fun ex =>
              { ex with types := updateFirst (fun tn => decide (tn.type = t.value)) updTy ex.types }
            let updPr : Project → Project := fun pr =>
              { pr with experiments := updateFirst (fun ex => decide (ex.experiment = x)) updEx pr.experiments }
            .ok (updateFirst (fun pr => decide (pr.project = p)) updPr d)
        | none =>
          let updEx : Experiment → Experiment := fun ex =>
            { ex with types := ex.types ++ [⟨t.value, [newPhase]⟩] }
          let updPr : Project → Project := fun pr =>
            { pr with experiments := updateFirst (fun ex => decide (ex.experiment = x)) updEx pr.experiments }
          .ok (updateFirst (fun pr => decide (pr.project = p)) updPr d)
      | none =>
        let updPr : Project → Project := fun pr =>
          { pr with experiments := pr.experiments ++ [⟨x, [⟨t.value, [newPhase]⟩]⟩] }
        .ok (updateFirst (fun pr => decide (pr.project = p)) updPr d)
    | none =>
      .ok (d ++ [⟨p, [⟨x, [⟨t.value, [newPhase]⟩]⟩]⟩])
  | _, _, _, _ => .error .notComplete

/-- Result of the whole `add_data` call.  On failure the `Data` component is the
catalog state at the moment of the error: entries added by earlier loop
iterations remain applied (the Python loop mutates `config` in place and then
raises `Exit`). -/
inductive AddResult where
  | ok (d : Data) (count : Nat)
  | dup (d : Data) (e : Entry)
  | invalid (d : Data) (e : Entry)
deriving DecidableEq, Repr

/-- `ConfigManager.add_data`: the loop over `entries`. -/
def addData (d : Data) : List Entry → AddResult
  | [] => .ok d 0
  | e :: es =>
    match addOne d e with
    | .ok d' =>
      match addData d' es with
      | .ok dfin n => .ok dfin (n + 1)
      | r => r
    | .error .duplicate => .dup d e
    | .error .notComplete => .invalid d e

/-! ### `ConfigManager.remove_data` (`core/config.py`) -/

/-- `type_.phases.remove(phase)` on the found type node, then the
`if len(...) == 0` cascade: an emptied node is removed from its parent. -/
def TypeNode.removePhaseNode (ty : TypeNode) (ps : List Char) : Option TypeNode :=
  let phs := removeFirst (fun q => decide (q.phase = ps)) ty.phases
  if phs.isEmpty then none else some { ty with phases := phs }

/-- Cascade step at the experiment level. -/
def Experiment.removeTypePhase (ex : Experiment) (ts ps : List Char) : Option Experiment :=
  let tys := dropOrReplace (fun ty => decide (ty.type = ts)) (fun ty => ty.removePhaseNode ps) ex.types
  if tys.isEmpty then none else some { ex with types := tys }

/-- Cascade step at the project level. -/
def Project.removeEntryPath (pr : Project) (x ts ps : List Char) : Option Project :=
  let exps := dropOrReplace (fun ex => decide (ex.experiment = x))
    (fun ex => ex.removeTypePhase ts ps) pr.experiments
  if exps.isEmpty then none else some { pr with experiments := exps }

/-- Remove the phase on a path known to exist, with the upward cascade-prune. -/
def cascadeRemove (d : Data) (k : Key) : Data :=
  dropOrReplace (fun pr => decide (pr.project = k.1))
    (fun pr => pr.removeEntryPath k.2.1 k.2.2.1 k.2.2.2) d

/-- How a single `remove_data` iteration ends. -/
inductive RemoveErr where
  | missing
  | notComplete
deriving DecidableEq, Repr

/-- One iteration of the `remove_data` loop: the full path must resolve,
otherwise the missing-entry error (`print_error` + `Exit(1)`). -/
def removeOne (d : Data) (e : Entry) : Except RemoveErr Data :=
  match e.project, e.experiment, e.type, e.phase with
  | some _, some _, some _, some _ =>
    match findPhaseNode d e.key with
    | some _ => .ok (cascadeRemove d e.key)
    | none => .error .missing
  | _, _, _, _ => .error .notComplete

/-- Result of the whole `remove_data` call. -/
inductive RemoveResult where
  | ok (d : Data) (count : Nat)
  | missing (d : Data) (e : Entry)
  | invalid (d : Data) (e : Entry)
deriving DecidableEq, Repr

/-- `ConfigManager.remove_data`: the loop over `entries`. -/
def removeData (d : Data) : List Entry → RemoveResult
  | [] => .ok d 0
  | e :: es =>
    match removeOne d e with
    | .ok d' =>
      match removeData d' es with
      | .ok dfin n => .ok dfin (n + 1)
      | r => r
    | .error .missing => .missing d e
    | .error .notComplete => .invalid d e

/-! ### `iter_data` (`helpers/common.py`) and `ConfigManager.find_data`

For wildcard enumeration the Python code constructs entries with `type_.enum` /
`phase.enum`, which raise `ValueError` on a vocabulary-violating stored string;
the embedding stores the `Option` result of the parse instead, so it is faithful
on catalogs whose stored enum strings are valid (which the theorems assume
through `namesUnique`/`wfData` hypotheses where relevant). -/

/-- `iter_data`: flatten the tree into denormalized entries, in tree order. -/
def iterData (d : Data) : List Entry :=
  d.flatMap fun proj => proj.experiments.flatMap fun exp => exp.types.flatMap fun ty =>
    ty.phases.map fun ph =>
      { project := some proj.project, experiment := some exp.experiment, type := ty.enum,
        phase := ph.enum, identifier := ph.identifier, files := ph.files }

/-- The matches produced by one query entry of the `find_data` loop, in the
order the Python code calls `found.add` on them. -/
def findOne (d : Data) (q : Entry) : List Entry :=
  if pyTruthy q.identifier then
    (iterData d).filter fun ce => decide (ce.identifier = q.identifier)
  else if pyTruthy q.project then
    -- when `pyTruthy q.project` holds, `q.project = some p` and `getD` returns `p`
    match d.getProject (q.project.getD []) with
    | none => []
    | some proj =>
      if pyTruthy q.experiment then
        match proj.getExperiment (q.experiment.getD []) with
        | none => []
        | some exp =>
          match q.type with
          | some t =>
            match exp.getType t.value with
            | none => []
            | some ty =>
              match q.phase with
              | some ph =>
                match ty.getPhase ph.value with
                | none => []
                | some phn =>
                  [{ project := q.project, experiment := q.experiment, type := q.type,
                     phase := q.phase, identifier := phn.identifier, files := phn.files }]
              | none =>
                ty.phases.map fun phn =>
                  { project := q.project, experiment := q.experiment, type := q.type,
                    phase := phn.enum, identifier := phn.identifier, files := phn.files }
          | none =>
            exp.types.flatMap fun ty => ty.phases.map fun phn =>
              { project := q.project, experiment := q.experiment, type := ty.enum,
                phase := phn.enum, identifier := phn.identifier, files := phn.files }
      else
        proj.experiments.flatMap fun ex => ex.types.flatMap fun ty => ty.phases.map fun phn =>
          { project := q.project, experiment := some ex.experiment, type := ty.enum,
            phase := phn.enum, identifier := phn.identifier, files := phn.files }
  else
    d.flatMap fun proj => proj.experiments.flatMap fun exp => exp.types.flatMap fun ty =>
      ty.phases.map fun ph =>
        { project := some proj.project, experiment := some exp.experiment, type := ty.enum,
          phase := ph.enum, identifier := ph.identifier, files := ph.files }

/-- `OrderedSet.add`: append unless an entry with the same path identity
(`Entry.__eq__`/`__hash__`) is already present. -/
def ordAdd (acc : List Entry) (e : Entry) : List Entry :=
  if acc.any fun a => a.pathEq e then acc else acc ++ [e]

/-- Add a batch of matches to the ordered set, in order. -/
def ordExtend (acc : List Entry) (new : List Entry) : List Entry :=
  new.foldl ordAdd acc

/-- `ConfigManager.find_data`: loop over query entries, collecting matches in an
`OrderedSet` keyed by `Entry` path identity, returned as a list. -/
def findData (d : Data) (qs : List Entry) : List Entry :=
  qs.foldl (fun acc q => ordExtend acc (findOne d q)) []

/-! ### Spec-side model of `findEntries` (claim C2)

These definitions follow the words of the specification (§4.1 `findEntries`),
to be compared with the embedding of the code above. -/

/-- Modelled from the spec: a tree entry matches a project-rooted query when it
agrees with the query on every specified level, descending only as far as
levels are specified (an unspecified level is a wildcard for everything
below it). -/
def prefixMatch (q ce : Entry) : Bool :=
  decide (ce.project = q.project) &&
    (!pyTruthy q.experiment || (decide (ce.experiment = q.experiment) &&
      (!q.type.isSome || (decide (ce.type = q.type) &&
        (!q.phase.isSome || decide (ce.phase = q.phase))))))

/-- Modelled from the spec: resolution of one query entry by specificity —
identifier equality first, then project-rooted descent with wildcards, else the
whole tree. -/
def findOneSpec (d : Data) (q : Entry) : List Entry :=
  if pyTruthy q.identifier then
    (iterData d).filter fun ce => decide (ce.identifier = q.identifier)
  else if pyTruthy q.project then
    (iterData d).filter (prefixMatch q)
  else
    iterData d

/-- Deduplicate by Entry path identity, keeping the first occurrence, in order. -/
def dedupFirstSeen (l : List Entry) : List Entry := l.foldl ordAdd []

/-- Modelled from the spec: results across all query entries, deduplicated by
path identity in first-seen order. -/
def findEntriesSpec (d : Data) (qs : List Entry) : List Entry :=
  dedupFirstSeen (qs.flatMap (findOneSpec d))

/-! ### Well-formedness of the catalog tree (§3 invariants) -/

/-- Name uniqueness at every level of the tree (§3: names unique within parent). -/
def namesUnique (d : Data) : Prop :=
  (d.map Project.project).Nodup ∧
    ∀ pr ∈ d, (pr.experiments.map Experiment.experiment).Nodup ∧
      ∀ ex ∈ pr.experiments, (ex.types.map TypeNode.type).Nodup ∧
        ∀ ty ∈ ex.types, (ty.phases.map Phase.phase).Nodup

/-- Full tree invariant: unique names and no empty intermediate node
(§3: every emptied node is pruned). -/
def wfData (d : Data) : Prop :=
  namesUnique d ∧
    ∀ pr ∈ d, pr.experiments ≠ [] ∧
      ∀ ex ∈ pr.experiments, ex.types ≠ [] ∧
        ∀ ty ∈ ex.types, ty.phases ≠ []

instance (d : Data) : Decidable (namesUnique d) := by
  unfold namesUnique
  infer_instance

instance (d : Data) : Decidable (wfData d) := by
  unfold wfData
  infer_instance

/-- The denormalized entry of one phase node (the constructor `iter_data` and
the wildcard branches of `find_data` apply at each leaf). -/
def entryOfPhase (p x : List Char) (tyv : Option EType) (ph : Phase) : Entry :=
  { project := some p, experiment := some x, type := tyv, phase := ph.enum,
    identifier := ph.identifier, files := ph.files }

/-- All entries below one type node. -/
def entriesOfType (p x : List Char) (ty : TypeNode) : List Entry :=
  ty.phases.map (entryOfPhase p x ty.enum)

/-- All entries below one experiment node. -/
def entriesOfExperiment (p : List Char) (ex : Experiment) : List Entry :=
  ex.types.flatMap (entriesOfType p ex.experiment)

/-- All entries below one project node. -/
def entriesOfProject (pr : Project) : List Entry :=
  pr.experiments.flatMap (entriesOfExperiment pr.project)

/-- The path keys of the phases below one type node. -/
def phKeys (p x ts : List Char) (phs : List Phase) : List Key :=
  phs.map fun ph => (p, x, ts, ph.phase)

/-- The path keys below one experiment node. -/
def tyKeys (p x : List Char) (tys : List TypeNode) : List Key :=
  tys.flatMap fun ty => phKeys p x ty.type ty.phases

/-- The path keys below one project node. -/
def exKeys (p : List Char) (exs : List Experiment) : List Key :=
  exs.flatMap fun ex => tyKeys p ex.experiment ex.types

/-- The multiset of full path keys present in the tree. -/
def keyList (d : Data) : List Key :=
  d.flatMap fun pr => exKeys pr.project pr.experiments

/-! ### `NetworkClient.fetch_file` (`core/network.py`)

The transfer routines (`fetch_with_aspera`, `fetch_from_ftp`, ...) are network /
filesystem I/O behind the spec's Transfer capability interface; they are
modelled by an oracle `att : Source → Bool` telling whether the dispatched
routine (including its internal 3-attempt retry) completes without raising.
`hash` is the digest `get_file_hash` computes at the destination afterwards. -/

/-- The `for source in file.sources` loop: dispatch by transport kind, `break` on
the first success, log a warning and continue on an exception.  A source whose
`type` string matches no `case` of the Python `match` is skipped silently (no
dispatch, no warning).  Returns the warned sources (in order) and the winning
source of the `break`, if any. -/
def attemptSources (att : Source → Bool) : List Source → List Source × Option Source
  | [] => ([], none)
  | s :: rest =>
    match ESource.parse s.type with
    | some _ =>
      if att s then ([], some s)
      else
        let r := attemptSources att rest
        (s :: r.1, r.2)
    | none => attemptSources att rest

/-- Terminal condition of one `fetch_file` call. -/
inductive FetchOutcome where
  | fetched (winner : Source) (file : File)
  | mismatch (winner : Source) (file : File)
  | noSource
deriving DecidableEq, Repr

/-- The source whose transfer completed, if any. -/
def FetchOutcome.winner : FetchOutcome → Option Source
  | .fetched s _ => some s
  | .mismatch s _ => some s
  | .noSource => none

/-- The `File` value after the call (checksum possibly updated / untouched). -/
def FetchOutcome.resultFile : FetchOutcome → Option File
  | .fetched _ f => some f
  | .mismatch _ f => some f
  | .noSource => none

/-- Observable result of `fetch_file`: warnings printed for failed sources, the
outcome, and whether a transferred copy is (still) present at the destination —
no code path after a completed transfer deletes it, including the
checksum-mismatch error path. -/
structure FetchResult where
  warnings : List Source
  onDisk : Bool
  outcome : FetchOutcome
deriving DecidableEq, Repr

/-- `NetworkClient.fetch_file`: try sources in order; if none succeeds,
`print_error` + `Exit(1)` (".. from any of the sources").  After a successful
transfer: an existing checksum is verified (mismatch: `print_error` +
`Exit(1)`, the stored checksum untouched, the file left on disk); an absent
checksum is computed from the transferred file and stored. -/
def fetchFile (att : Source → Bool) (hash : List Char) (file : File) : FetchResult :=
  let r := attemptSources att file.sources
  match r.2 with
  | none => { warnings := r.1, onDisk := false, outcome := .noSource }
  | some s =>
    match file.checksum with
    | some c =>
      if hash = c then { warnings := r.1, onDisk := true, outcome := .fetched s file }
      else { warnings := r.1, onDisk := true, outcome := .mismatch s file }
    | none =>
      { warnings := r.1, onDisk := true,
        outcome := .fetched s { file with checksum := some hash } }

/-! ### Run-accession URL derivation (`helpers/database.py`) -/

/-- Python slice `s[k:]`, including the negative-start convention. -/
def pySliceFrom (s : List Char) (k : Int) : List Char :=
  if k < 0 then s.drop (s.length - min s.length (-k).toNat) else s.drop k.toNat

/-- Python `int(s)` on the digit-only strings these helpers slice out of an
accession (the real `int` also accepts signs/whitespace, which cannot occur
here); a non-numeric string raises `ValueError` (`none`). -/
def pyIntParse (s : List Char) : Option Nat :=
  if s ≠ [] ∧ s.all Char.isDigit then
    some (s.foldl (fun n c => n * 10 + (c.toNat - '0'.toNat)) 0)
  else none

/-- Python `f"{n:03d}"` for a natural number. -/
def pyFormat03d (n : Nat) : List Char :=
  let ds := Nat.toDigits 10 n
  List.replicate (3 - ds.length) '0' ++ ds

/-- `str | tuple[str, str]` return type of the URL helpers. -/
inductive UrlResult where
  | single (u : List Char)
  | pair (u1 u2 : List Char)
deriving DecidableEq, Repr

/-- The conditional `f"{int(srr[9 - len(srr):]):03d}/"` folder component. -/
def sraFolderPart (srr : List Char) : Option (List Char) :=
  if srr.length > 9 then
    (pyIntParse (pySliceFrom srr (9 - (srr.length : Int)))).map fun n => pyFormat03d n ++ ['/']
  else some []

/-- `get_aspera_url_from_srr`. -/
def get_aspera_url_from_srr (srr : List Char) (paired : Bool) : Option UrlResult :=
  (sraFolderPart srr).map fun folder =>
    let path := str "era-fasp@fasp.sra.ebi.ac.uk:vol1/fastq/" ++ srr.take 6 ++ ['/'] ++ folder
      ++ srr ++ ['/'] ++ srr
    if paired then .pair (path ++ str "_1.fastq.gz") (path ++ str "_2.fastq.gz")
    else .single (path ++ str ".fastq.gz")

/-- `get_ftp_url_from_srr`. -/
def get_ftp_url_from_srr (srr : List Char) (paired : Bool) : Option UrlResult :=
  (sraFolderPart srr).map fun folder =>
    let path := str "ftp://ftp.sra.ebi.ac.uk/vol1/fastq/" ++ srr.take 6 ++ ['/'] ++ folder
      ++ srr ++ ['/'] ++ srr
    if paired then .pair (path ++ str "_1.fastq.gz") (path ++ str "_2.fastq.gz")
    else .single (path ++ str ".fastq.gz")

/-- `get_files_from_srr`: one file per mate (paired) or a single file, each with
an aspera source followed by an ftp source. -/
def get_files_from_srr (srr : List Char) (paired : Bool) : Option (List File) :=
  if paired then
    match get_aspera_url_from_srr srr true, get_ftp_url_from_srr srr true with
    | some (.pair a1 a2), some (.pair f1 f2) =>
      some [⟨none, [⟨ESource.aspera.value, a1⟩, ⟨ESource.ftp.value, f1⟩]⟩,
            ⟨none, [⟨ESource.aspera.value, a2⟩, ⟨ESource.ftp.value, f2⟩]⟩]
    | _, _ => none
  else
    match get_aspera_url_from_srr srr false, get_ftp_url_from_srr srr false with
    | some (.single a), some (.single f) =>
      some [⟨none, [⟨ESource.aspera.value, a⟩, ⟨ESource.ftp.value, f⟩]⟩]
    | _, _ => none

/-- Modelled from the spec: the claimed remote-path layout
`<service-root>/<first 6 chars>/<zero-padded 3-digit suffix folder IF length >
9>/<accession>/<accession><suffix>`, with the folder number taken from the
numeric suffix beyond the first 9 characters. -/
def claimRemotePath (root srr suffix : List Char) : Option (List Char) :=
  if srr.length > 9 then
    (pyIntParse (srr.drop 9)).map fun n =>
      root ++ srr.take 6 ++ ['/'] ++ pyFormat03d n ++ ['/'] ++ srr ++ ['/'] ++ srr ++ suffix
  else some (root ++ srr.take 6 ++ ['/'] ++ srr ++ ['/'] ++ srr ++ suffix)

/-- Modelled from the spec: the claimed derived files — two per paired layout
(suffixes `_1`/`_2`), one otherwise, each carrying exactly an
accelerated-transfer source and an FTP source for the same logical object. -/
def claimFiles (srr : List Char) (paired : Bool) : Option (List File) :=
  let aroot := str "era-fasp@fasp.sra.ebi.ac.uk:vol1/fastq/"
  let froot := str "ftp://ftp.sra.ebi.ac.uk/vol1/fastq/"
  if paired then
    match claimRemotePath aroot srr (str "_1.fastq.gz"), claimRemotePath froot srr (str "_1.fastq.gz"),
        claimRemotePath aroot srr (str "_2.fastq.gz"), claimRemotePath froot srr (str "_2.fastq.gz") with
    | some a1, some f1, some a2, some f2 =>
      some [⟨none, [⟨ESource.aspera.value, a1⟩, ⟨ESource.ftp.value, f1⟩]⟩,
            ⟨none, [⟨ESource.aspera.value, a2⟩, ⟨ESource.ftp.value, f2⟩]⟩]
    | _, _, _, _ => none
  else
    match claimRemotePath aroot srr (str ".fastq.gz"), claimRemotePath froot srr (str ".fastq.gz") with
    | some a, some f =>
      some [⟨none, [⟨ESource.aspera.value, a⟩, ⟨ESource.ftp.value, f⟩]⟩]
    | _, _ => none

/-! ### `sanitize_string` and `combine_name` (`helpers/common.py`)

Case predicates and the case mapping are the ASCII fragment of Python's
unicode-aware `str.islower`/`str.isupper`/`str.lower`. -/

/-- ASCII `str.lower` on one character. -/
def asciiLower (c : Char) : Char :=
  if 'A' ≤ c ∧ c ≤ 'Z' then Char.ofNat (c.toNat + 32) else c

/-- The camelCase boundary indexes collected by the first loop of
`sanitize_string`. -/
def camelIndexes (cs : List Char) : List Nat :=
  (List.range cs.length).filterMap fun i =>
    if (cs.getD i ' ').isLower then
      if i + 1 < cs.length ∧ (cs.getD (i + 1) ' ').isUpper then some (i + 1) else none
    else if (cs.getD i ' ').isUpper then
      if i + 2 < cs.length ∧ (cs.getD (i + 1) ' ').isUpper ∧ (cs.getD (i + 2) ' ').isLower then
        some (i + 1)
      else none
    else none

/-- `"_".join(string[i:j] for i, j in zip([0] + indexes, indexes + [length]))`:
equivalently, insert an underscore before every boundary index. -/
def insertBoundaries (cs : List Char) : List Char :=
  let idxs := camelIndexes cs
  (List.range cs.length).flatMap fun i =>
    (if i ∈ idxs then ['_'] else []) ++ [cs.getD i ' ']

/-- Characters kept by `re.sub(r"[^a-zA-Z0-9_-]", "_", ...)`. -/
def pyIsAllowed (c : Char) : Bool :=
  c.isAlpha || c.isDigit || c == '_' || c == '-'

/-- `.strip("_")`. -/
def stripUnders (cs : List Char) : List Char :=
  ((cs.dropWhile (· = '_')).reverse.dropWhile (· = '_')).reverse

/-- `re.sub(r"_{2,}", "_", ...)`: collapse runs of underscores. -/
def collapseUnders (cs : List Char) : List Char :=
  cs.foldr (fun c acc => if c = '_' ∧ acc.head? = some '_' then acc else c :: acc) []

/-- `sanitize_string`: camelCase → snake_case, lower, replace invalid characters
by underscores, strip outer underscores, collapse runs. -/
def sanitize_string (cs : List Char) : List Char :=
  let snake := (insertBoundaries cs).map asciiLower
  let replaced := snake.map fun c => if pyIsAllowed c then c else '_'
  collapseUnders (stripUnders replaced)

/-- Last index of `c` in the list (`str.rfind` without bounds). -/
def lastIdxOf (c : Char) : List Char → Option Nat
  | [] => none
  | a :: as =>
    match lastIdxOf c as with
    | some i => some (i + 1)
    | none => if a = c then some 0 else none

/-- `name.rfind("_", 0, 40)`: last underscore index within the first 40
characters (`-1` ↦ `none`). -/
def pyRfindUnder40 (cs : List Char) : Option Nat := lastIdxOf '_' (cs.take 40)

/-- `s.startswith(pre)` on character lists. -/
def startsWithList : List Char → List Char → Bool
  | _, [] => true
  | [], _ :: _ => false
  | a :: as, b :: bs => a = b && startsWithList as bs

/-- The final prefix-combining step of `combine_name`: prepend the lowered
prefix unless the (possibly truncated) sanitized title already starts with it. -/
def combinePrefix (pre t : List Char) : List Char :=
  if startsWithList t (pre.map asciiLower) then t else pre.map asciiLower ++ ['_'] ++ t

/-- `combine_name(prefix, name)`. -/
def combine_name (pre name : List Char) : List Char :=
  if name = [] then pre.map asciiLower
  else
    let n1 := sanitize_string name
    let n2 :=
      if n1.length > 40 then
        match pyRfindUnder40 n1 with
        | some i => n1.take i
        | none => n1
      else n1
    let lowPre := pre.map asciiLower
    if startsWithList n2 lowPre then n2 else lowPre ++ ['_'] ++ n2

/-! ### Catalog load (`ConfigManager.load` + dacite `from_dict`, claim C9)

`load` parses the manifest and builds `Config.Internal` with `from_dict`; any
exception there is caught and turned into the load-failure path (`print_error`
+ `Exit(1)`), modelled by `none`.  `from_dict` checks the parsed value
structurally against the dataclass field types — the enum-like fields
(`Source.type`, `Phase.phase`, `Type.type`) are declared as plain `str`, so the
check accepts any string; fields with dataclass defaults may be absent. -/

/-- A parsed manifest value (the shapes ruamel.yaml can produce here). -/
inductive Yaml where
  | strv (s : List Char)
  | nullv
  | seq (items : List Yaml)
  | dict (fields : List (List Char × Yaml))

/-- Dictionary field lookup. -/
def Yaml.field? : Yaml → List Char → Option Yaml
  | .dict fs, k => (fs.find? fun kv => decide (kv.1 = k)).map Prod.snd
  | _, _ => none

/-- A required `str` field. -/
def asStr : Option Yaml → Option (List Char)
  | some (.strv s) => some s
  | _ => none

/-- An `Optional[str]` field with default `None`. -/
def asOptStr : Option Yaml → Option (Option (List Char))
  | none => some none
  | some .nullv => some none
  | some (.strv s) => some (some s)
  | some _ => none

/-- A required `list[α]` field. -/
def asList (f : Yaml → Option α) : Option Yaml → Option (List α)
  | some (.seq items) => items.mapM f
  | _ => none

/-- A `list[α]` field with default `[]`. -/
def asListD (f : Yaml → Option α) : Option Yaml → Option (List α)
  | none => some []
  | some (.seq items) => items.mapM f
  | _ => none

/-- `from_dict` for `Source`: `type` and `value` are plain strings. -/
def parseSourceY : Yaml → Option Source
  | y@(.dict _) => do
    let t ← asStr (y.field? (str "type"))
    let v ← asStr (y.field? (str "value"))
    some ⟨t, v⟩
  | _ => none

/-- `from_dict` for `File`. -/
def parseFileY : Yaml → Option File
  | y@(.dict _) => do
    let c ← asOptStr (y.field? (str "checksum"))
    let ss ← asListD parseSourceY (y.field? (str "sources"))
    some ⟨c, ss⟩
  | _ => none

/-- `from_dict` for `Phase`: the phase is a plain string. -/
def parsePhaseY : Yaml → Option Phase
  | y@(.dict _) => do
    let p ← asStr (y.field? (str "phase"))
    let idf ← asOptStr (y.field? (str "identifier"))
    let fs ← asListD parseFileY (y.field? (str "files"))
    some ⟨p, idf, fs⟩
  | _ => none

/-- `from_dict` for `Type`: the type is a plain string. -/
def parseTypeY : Yaml → Option TypeNode
  | y@(.dict _) => do
    let t ← asStr (y.field? (str "type"))
    let ps ← asList parsePhaseY (y.field? (str "phases"))
    some ⟨t, ps⟩
  | _ => none

/-- `from_dict` for `Experiment`. -/
def parseExperimentY : Yaml → Option Experiment
  | y@(.dict _) => do
    let x ← asStr (y.field? (str "experiment"))
    let ts ← asList parseTypeY (y.field? (str "types"))
    some ⟨x, ts⟩
  | _ => none

/-- `from_dict` for `Project`. -/
def parseProjectY : Yaml → Option Project
  | y@(.dict _) => do
    let p ← asStr (y.field? (str "project"))
    let xs ← asList parseExperimentY (y.field? (str "experiments"))
    some ⟨p, xs⟩
  | _ => none

/-- Catalog load restricted to the `data` field: `from_dict` on the stored list
of projects, then `Data(config_internal.data or [])`.  `none` is the caught
exception path of `ConfigManager.load` (the load failure the claim is about). -/
def loadDataField : Yaml → Option (List Project)
  | .seq items => items.mapM parseProjectY
  | .nullv => some []
  | _ => none

/-! ### `DataManager.check_files` (`core/file.py`)

Filesystem state is an oracle pair: `ex p` tells whether path `p` exists,
`hs p` is `get_file_hash(p)`.  Paths are the `/`-joined strings the `pathlib`
expressions produce (path normalization corner cases such as `..` segments do
not arise for these names). -/

/-- `Path(s).name`: the last nonempty `/`-separated component. -/
def splitSlash (cs : List Char) : List (List Char) :=
  cs.foldr (fun c acc =>
    if c = '/' then [] :: acc
    else match acc with
      | g :: gs => (c :: g) :: gs
      | [] => [[c]]) [[]]

/-- `Path(s).name`. -/
def pyPathName (s : List Char) : List Char :=
  ((splitSlash s).filter (· ≠ [])).getLastD []

/-- The part after the first occurrence of `pat`, if any. -/
def afterSubstr (pat : List Char) : List Char → Option (List Char)
  | [] => if pat = [] then some [] else none
  | c :: rest =>
    if startsWithList (c :: rest) pat then some ((c :: rest).drop pat.length)
    else afterSubstr pat rest

/-- Minimal model of `urllib.parse.urlparse(url).path` for the
`scheme://netloc/path` URLs this code feeds it: the part after the netloc, with
query and fragment cut off; without `"://"` the string is returned whole. -/
def pyUrlparsePath (s : List Char) : List Char :=
  let base := (s.takeWhile (· ≠ '?')).takeWhile (· ≠ '#')
  match afterSubstr (str "://") base with
  | none => base
  | some rest =>
    match splitSlash rest with
    | [] => []
    | [_netloc] => []
    | _netloc :: ps => '/' :: List.intercalate ['/'] ps

/-- `get_file_name` (`helpers/common.py`): basename of the first source's
location, via `urlparse` for URL-shaped kinds; `file.sources[0]` raises on an
empty source list (`none`). -/
def get_file_name (f : File) : Option (List Char) :=
  match f.sources with
  | [] => none
  | s :: _ =>
    match ESource.parse s.type with
    | some .aspera => some (pyPathName s.value)
    | some .local => some (pyPathName s.value)
    | some .ssh => some (pyPathName s.value)
    | _ => some (pyPathName (pyUrlparsePath s.value))

/-- `Entry.name` (`models/data.py`): the joined path when all four components
are truthy, else the identifier, else the comma-joined basenames of each
file's first source (raising — `none` — on an empty source list). -/
def Entry.name (e : Entry) : Option (List Char) :=
  if pyTruthy e.project ∧ pyTruthy e.experiment ∧ e.type.isSome ∧ e.phase.isSome then
    some (e.project.getD [] ++ ['/'] ++ e.experiment.getD [] ++ ['@']
      ++ (e.type.map EType.value).getD [] ++ ['/'] ++ (e.phase.map EPhase.value).getD [])
  else if pyTruthy e.identifier then
    some (e.identifier.getD [])
  else
    (e.files.mapM (fun (f : File) =>
      match f.sources with
      | [] => (none : Option (List Char))
      | s :: _ => some (pyPathName (pyUrlparsePath s.value)))).map (List.intercalate (str ", "))

/-- `get_file_directory`: `Path(base) / entry.name`. -/
def get_file_directory (base : List Char) (e : Entry) : Option (List Char) :=
  e.name.map fun nm => base ++ ['/'] ++ nm

/-- The per-entry file loop of `check_files`: flag at the first file whose path
is missing, or — when verification is requested — whose on-disk digest differs
from the stored checksum (`break` ends the loop). -/
def entryFlag (ex : List Char → Bool) (hs : List Char → List Char) (dir : List Char)
    (verify : Bool) : List File → Option Bool
  | [] => some false
  | f :: fs =>
    match get_file_name f with
    | none => none
    | some fn =>
      let p := dir ++ ['/'] ++ fn
      if !ex p then some true
      else if verify && decide (some (hs p) ≠ f.checksum) then some true
      else entryFlag ex hs dir verify fs

/-- One iteration of the outer entry loop of `check_files`: compute the entry's
directory, run the file loop, and append the entry to the accumulator when it
was flagged. -/
def checkStep (ex : List Char → Bool) (hs : List Char → List Char) (dataDir : List Char)
    (verify : Bool) (acc : List Entry) (e : Entry) : Option (List Entry) :=
  match get_file_directory dataDir e with
  | none => none
  | some dir => (entryFlag ex hs dir verify e.files).map fun b => if b then acc ++ [e] else acc

/-- `DataManager.check_files`: collect, in tree order, the entries whose files
are missing or corrupted. -/
def check_files (ex : List Char → Bool) (hs : List Char → List Char) (dataDir : List Char)
    (d : Data) (verify : Bool) : Option (List Entry) :=
  (iterData d).foldlM (checkStep ex hs dataDir verify) []

/-!
## Theorems
-/

/-- The negative Python slice used by the URL helpers equals dropping the first
nine characters, for accessions longer than nine characters. -/
theorem pySliceFrom_nine (s : List Char) (h : 9 < s.length) :
    pySliceFrom s (9 - (s.length : Int)) = s.drop 9 := by
  unfold pySliceFrom
  rw [if_pos (by omega)]
  have h1 : (-(9 - (s.length : Int))).toNat = s.length - 9 := by omega
  rw [h1]
  congr 1
  omega

/-- C6: for every run accession and paired/unpaired flag, the derived files are
exactly the claim's layout — `<service-root>/<first 6 chars>/<zero-padded
3-digit folder iff length > 9, from the numeric suffix beyond the first 9
characters>/<accession>/<accession>[_1|_2].fastq.gz` — with two files for a
paired layout and one otherwise, each carrying exactly an accelerated-transfer
source followed by an FTP source for the same logical object. -/
theorem C6_run_accession_url_derivation (srr : List Char) (paired : Bool) :
    get_files_from_srr srr paired = claimFiles srr paired := by
  have hfold : sraFolderPart srr =
      if 9 < srr.length then (pyIntParse (srr.drop 9)).map fun n => pyFormat03d n ++ ['/']
      else some [] := by
    unfold sraFolderPart
    split_ifs with h
    · rw [pySliceFrom_nine srr h]
    · rfl
  by_cases h : 9 < srr.length
  · cases hn : pyIntParse (srr.drop 9) with
    | none =>
      cases paired <;>
        simp [get_files_from_srr, claimFiles, get_aspera_url_from_srr, get_ftp_url_from_srr,
          claimRemotePath, hfold, hn, h]
    | some n =>
      cases paired <;>
        simp [get_files_from_srr, claimFiles, get_aspera_url_from_srr, get_ftp_url_from_srr,
          claimRemotePath, hfold, hn, h, List.append_assoc]
  · cases paired <;>
      simp [get_files_from_srr, claimFiles, get_aspera_url_from_srr, get_ftp_url_from_srr,
        claimRemotePath, hfold, h, List.append_assoc]

/-- C7 counterexample: `SRR000001` has length 9, so the code omits the numeric
subfolder — neither derived source points at the claimed
`.../SRR000/001/SRR000001/...` layout. -/
theorem C7_counterexample_no_001_subfolder :
    get_aspera_url_from_srr (str "SRR000001") true ≠
      some (.pair
        (str "era-fasp@fasp.sra.ebi.ac.uk:vol1/fastq/SRR000/001/SRR000001/SRR000001_1.fastq.gz")
        (str "era-fasp@fasp.sra.ebi.ac.uk:vol1/fastq/SRR000/001/SRR000001/SRR000001_2.fastq.gz")) ∧
    get_ftp_url_from_srr (str "SRR000001") true ≠
      some (.pair
        (str "ftp://ftp.sra.ebi.ac.uk/vol1/fastq/SRR000/001/SRR000001/SRR000001_1.fastq.gz")
        (str "ftp://ftp.sra.ebi.ac.uk/vol1/fastq/SRR000/001/SRR000001/SRR000001_2.fastq.gz")) := by
  decide

/-- C7 (amended): `SRR000001` is 9 characters long, so both derived sources
omit the numeric subfolder and point at `.../SRR000/SRR000001/SRR000001_1.fastq.gz`
and `..._2.fastq.gz`; likewise `SRR1` (length ≤ 9) omits the numeric subfolder. -/
theorem C7_amended_run_accession_urls :
    get_aspera_url_from_srr (str "SRR000001") true =
      some (.pair
        (str "era-fasp@fasp.sra.ebi.ac.uk:vol1/fastq/SRR000/SRR000001/SRR000001_1.fastq.gz")
        (str "era-fasp@fasp.sra.ebi.ac.uk:vol1/fastq/SRR000/SRR000001/SRR000001_2.fastq.gz")) ∧
    get_ftp_url_from_srr (str "SRR000001") true =
      some (.pair
        (str "ftp://ftp.sra.ebi.ac.uk/vol1/fastq/SRR000/SRR000001/SRR000001_1.fastq.gz")
        (str "ftp://ftp.sra.ebi.ac.uk/vol1/fastq/SRR000/SRR000001/SRR000001_2.fastq.gz")) ∧
    get_aspera_url_from_srr (str "SRR1") true =
      some (.pair
        (str "era-fasp@fasp.sra.ebi.ac.uk:vol1/fastq/SRR1/SRR1/SRR1_1.fastq.gz")
        (str "era-fasp@fasp.sra.ebi.ac.uk:vol1/fastq/SRR1/SRR1/SRR1_2.fastq.gz")) ∧
    get_ftp_url_from_srr (str "SRR1") true =
      some (.pair
        (str "ftp://ftp.sra.ebi.ac.uk/vol1/fastq/SRR1/SRR1/SRR1_1.fastq.gz")
        (str "ftp://ftp.sra.ebi.ac.uk/vol1/fastq/SRR1/SRR1/SRR1_2.fastq.gz")) := by
  decide

/-- `lastIdxOf` misses no occurrence: `none` means the character is absent. -/
theorem lastIdxOf_none (c : Char) (l : List Char) (h : lastIdxOf c l = none) :
    ∀ j, j < l.length → l[j]? ≠ some c := by
  induction l with
  | nil => intro j hj; simp at hj
  | cons a as ih =>
    unfold lastIdxOf at h
    cases hrec : lastIdxOf c as with
    | some k => rw [hrec] at h; exact absurd h (by simp)
    | none =>
      rw [hrec] at h
      have hac : ¬ (a = c) := by
        intro he
        rw [if_pos he] at h
        exact absurd h (by simp)
      intro j hj
      cases j with
      | zero => simpa using hac
      | succ j' =>
        simp only [List.getElem?_cons_succ]
        exact ih hrec j' (by simpa using hj)

/-- `lastIdxOf` finds the last occurrence of the character. -/
theorem lastIdxOf_some (c : Char) (l : List Char) (i : Nat) (h : lastIdxOf c l = some i) :
    i < l.length ∧ l[i]? = some c ∧ ∀ j, i < j → j < l.length → l[j]? ≠ some c := by
  induction l generalizing i with
  | nil => simp [lastIdxOf] at h
  | cons a as ih =>
    unfold lastIdxOf at h
    cases hrec : lastIdxOf c as with
    | some k =>
      rw [hrec] at h
      obtain rfl : i = k + 1 := by simpa using h.symm
      obtain ⟨h1, h2, h3⟩ := ih k hrec
      refine ⟨by simpa using Nat.succ_lt_succ h1, by simpa using h2, ?_⟩
      intro j hj hjl
      cases j with
      | zero => omega
      | succ j' =>
        simp only [List.getElem?_cons_succ]
        exact h3 j' (by omega) (by simpa using hjl)
    | none =>
      rw [hrec] at h
      by_cases hac : a = c
      · rw [if_pos hac] at h
        obtain rfl : i = 0 := by simpa using h.symm
        refine ⟨by simp, by simpa using hac, ?_⟩
        intro j hj hjl
        cases j with
        | zero => omega
        | succ j' =>
          simp only [List.getElem?_cons_succ]
          exact lastIdxOf_none c as hrec j' (by simpa using hjl)
      · rw [if_neg hac] at h
        exact absurd h (by simp)

/-- C8 counterexample: a 45-character sanitized title with no underscore in its
first 40 characters is kept in full — the result embeds all 45 characters, so
the claimed unconditional truncation to at most 40 characters fails. -/
theorem C8_counterexample_no_underscore_boundary :
    (sanitize_string (List.replicate 45 'a')).length = 45 ∧
    combine_name (str "SRP1") (List.replicate 45 'a') = str "srp1_" ++ List.replicate 45 'a' := by
  decide

/-- C8 (amended): for every prefix and nonempty title, with `s` the sanitized
title: when `s` is longer than 40 characters and an underscore occurs among its
first 40 characters, the code truncates `s` at the last such underscore
boundary (giving at most 40 characters) before combining; when no underscore
occurs there, `s` is kept in full; titles of at most 40 characters are kept as
is; and the lowered prefix is not duplicated when the (truncated) title already
starts with it. -/
theorem C8_truncation_and_prefix (pre name : List Char) (hne : name ≠ []) :
    (∀ i, pyRfindUnder40 (sanitize_string name) = some i →
        40 < (sanitize_string name).length →
        i < 40 ∧ (sanitize_string name)[i]? = some '_' ∧
          (∀ j, i < j → j < 40 → (sanitize_string name)[j]? ≠ some '_') ∧
          combine_name pre name = combinePrefix pre ((sanitize_string name).take i) ∧
          ((sanitize_string name).take i).length ≤ 40) ∧
    (pyRfindUnder40 (sanitize_string name) = none → 40 < (sanitize_string name).length →
        combine_name pre name = combinePrefix pre (sanitize_string name)) ∧
    ((sanitize_string name).length ≤ 40 →
        combine_name pre name = combinePrefix pre (sanitize_string name)) ∧
    (∀ t, startsWithList t (pre.map asciiLower) = true → combinePrefix pre t = t) := by
  refine ⟨?_, ?_, ?_, ?_⟩
  · intro i hfind hlen
    obtain ⟨h1, h2, h3⟩ := lastIdxOf_some '_' ((sanitize_string name).take 40) i hfind
    have hi40 : i < 40 := by
      have := h1
      simp only [List.length_take] at this
      omega
    have hgeti : (sanitize_string name)[i]? = some '_' := by
      rw [List.getElem?_take, if_pos hi40] at h2
      exact h2
    refine ⟨hi40, hgeti, ?_, ?_, ?_⟩
    · intro j hij hj40
      have hjlt : j < ((sanitize_string name).take 40).length := by
        simp only [List.length_take]
        omega
      have := h3 j hij hjlt
      rw [List.getElem?_take, if_pos hj40] at this
      exact this
    · unfold combine_name
      rw [if_neg hne]
      simp only [if_pos hlen, hfind, combinePrefix]
    · have : ((sanitize_string name).take i).length ≤ i := by
        simp [List.length_take]
      omega
  · intro hfind hlen
    unfold combine_name
    rw [if_neg hne]
    simp only [if_pos hlen, hfind, combinePrefix]
  · intro hlen
    have h40 : ¬ ((sanitize_string name).length > 40) := by omega
    unfold combine_name
    rw [if_neg hne]
    simp only [if_neg h40, combinePrefix]
  · intro t ht
    unfold combinePrefix
    rw [if_pos ht]

/-- C8 witness: a 51-character sanitized title with an underscore at index 30
is truncated there and combined with the prefix. -/
theorem C8_truncation_witness :
    combine_name (str "SRP123") (List.replicate 30 'a' ++ [' '] ++ List.replicate 20 'b') =
      combinePrefix (str "SRP123")
        ((sanitize_string (List.replicate 30 'a' ++ [' '] ++ List.replicate 20 'b')).take 30) ∧
    ((sanitize_string (List.replicate 30 'a' ++ [' '] ++ List.replicate 20 'b')).take 30).length ≤ 40 := by
  have h := C8_truncation_and_prefix (str "SRP123")
    (List.replicate 30 'a' ++ [' '] ++ List.replicate 20 'b') (by decide)
  have h1 := h.1 30 (by decide) (by decide)
  exact ⟨h1.2.2.2.1, h1.2.2.2.2⟩

/-- Unfolding equation for one iteration of the source loop. -/
theorem attemptSources_cons (att : Source → Bool) (a : Source) (rest : List Source) :
    attemptSources att (a :: rest) =
      match ESource.parse a.type with
      | some _ =>
        if att a then ([], some a)
        else ((a :: (attemptSources att rest).1, (attemptSources att rest).2))
      | none => attemptSources att rest := rfl

/-- The source loop stops at the first recognized source whose transfer
succeeds: earlier recognized failures are warned, unrecognized kinds skipped. -/
theorem attemptSources_first_success (att : Source → Bool) (pre : List Source) (s : Source)
    (post : List Source)
    (hfail : ∀ t ∈ pre, (ESource.parse t.type).isSome → att t = false)
    (hrec : (ESource.parse s.type).isSome) (hwin : att s = true) :
    attemptSources att (pre ++ s :: post) =
      (pre.filter fun t => (ESource.parse t.type).isSome, some s) := by
  induction pre with
  | nil =>
    simp only [List.nil_append, List.filter_nil, attemptSources_cons]
    cases hp : ESource.parse s.type with
    | none => rw [hp] at hrec; simp at hrec
    | some k => simp [hwin]
  | cons a pre ih =>
    have ih' := ih fun t ht hr => hfail t (List.mem_cons_of_mem _ ht) hr
    simp only [List.cons_append, attemptSources_cons]
    cases hp : ESource.parse a.type with
    | none =>
      rw [List.filter_cons_of_neg (by simp [hp])]
      simpa using ih'
    | some k =>
      have hfa : att a = false := hfail a (List.mem_cons_self _ _) (by simp [hp])
      rw [List.filter_cons_of_pos (by simp [hp])]
      simp [hfa, ih']

/-- When every recognized source fails, the loop warns them all and finds no
winner. -/
theorem attemptSources_all_fail (att : Source → Bool) (l : List Source)
    (hfail : ∀ t ∈ l, (ESource.parse t.type).isSome → att t = false) :
    attemptSources att l = (l.filter (fun t => (ESource.parse t.type).isSome), none) := by
  induction l with
  | nil => rfl
  | cons a l ih =>
    have ih' := ih fun t ht hr => hfail t (List.mem_cons_of_mem _ ht) hr
    rw [attemptSources_cons]
    cases hp : ESource.parse a.type with
    | none =>
      rw [List.filter_cons_of_neg (by simp [hp])]
      simpa using ih'
    | some k =>
      have hfa : att a = false := hfail a (List.mem_cons_self _ _) (by simp [hp])
      rw [List.filter_cons_of_pos (by simp [hp])]
      simp [hfa, ih']

/-- C4: `fetch_file` tries the file's sources in listed order; the first source
whose dispatched transfer completes wins and later sources are never attempted
(the result is independent of them); a failing recognized source only produces
a warning; and when every recognized source fails the call ends in the
no-reachable-source error.  In particular a file with sources `[A (fails),
B (succeeds)]` is fetched via `B` with `A` merely warned. -/
theorem C4_fetch_source_fallback :
    (∀ (att : Source → Bool) (hash : List Char) (f : File) (pre : List Source) (s : Source)
        (post : List Source), f.sources = pre ++ s :: post →
        (∀ t ∈ pre, (ESource.parse t.type).isSome → att t = false) →
        (ESource.parse s.type).isSome → att s = true →
        (fetchFile att hash f).outcome.winner = some s ∧
          (fetchFile att hash f).warnings =
            (pre.filter fun t => (ESource.parse t.type).isSome) ∧
          ∀ post',
            (fetchFile att hash { f with sources := pre ++ s :: post' }).outcome.winner = some s ∧
            (fetchFile att hash { f with sources := pre ++ s :: post' }).warnings =
              (pre.filter fun t => (ESource.parse t.type).isSome)) ∧
    (∀ (att : Source → Bool) (hash : List Char) (f : File),
        (∀ t ∈ f.sources, (ESource.parse t.type).isSome → att t = false) →
        fetchFile att hash f =
          ⟨f.sources.filter fun t => (ESource.parse t.type).isSome, false, .noSource⟩) ∧
    (∀ (hash : List Char) (A B : Source) (att : Source → Bool),
        (ESource.parse A.type).isSome → (ESource.parse B.type).isSome →
        att A = false → att B = true →
        fetchFile att hash ⟨none, [A, B]⟩ = ⟨[A], true, .fetched B ⟨some hash, [A, B]⟩⟩) := by
  refine ⟨?_, ?_, ?_⟩
  · intro att hash f pre s post hsrc hfail hrec hwin
    have hatt : attemptSources att f.sources =
        (pre.filter fun t => (ESource.parse t.type).isSome, some s) := by
      rw [hsrc]
      exact attemptSources_first_success att pre s post hfail hrec hwin
    have hatt' : ∀ post', attemptSources att (pre ++ s :: post') =
        (pre.filter fun t => (ESource.parse t.type).isSome, some s) := fun post' =>
      attemptSources_first_success att pre s post' hfail hrec hwin
    refine ⟨?_, ?_, ?_⟩
    · simp only [fetchFile, hatt]
      cases f.checksum with
      | none => rfl
      | some c =>
        by_cases hh : hash = c <;> simp [hh, FetchOutcome.winner]
    · simp only [fetchFile, hatt]
      cases f.checksum with
      | none => rfl
      | some c =>
        by_cases hh : hash = c <;> simp [hh]
    · intro post'
      constructor
      · simp only [fetchFile, hatt']
        cases f.checksum with
        | none => rfl
        | some c =>
          by_cases hh : hash = c <;> simp [hh, FetchOutcome.winner]
      · simp only [fetchFile, hatt']
        cases f.checksum with
        | none => rfl
        | some c =>
          by_cases hh : hash = c <;> simp [hh]
  · intro att hash f hfail
    have hatt := attemptSources_all_fail att f.sources hfail
    simp only [fetchFile, hatt]
  · intro hash A B att hA hB hfA hfB
    have h := attemptSources_first_success att [A] B [] (by
      intro t ht _
      have : t = A := by simpa using ht
      rw [this]
      exact hfA) hB hfB
    have hfil : [A].filter (fun t => (ESource.parse t.type).isSome) = [A] := by
      rw [List.filter_cons_of_pos]
      · rfl
      · simpa using hA
    simp only [List.cons_append, List.nil_append] at h
    rw [hfil] at h
    simp only [fetchFile, h]

/-- C4 witness: a concrete file with a failing first source and a succeeding
second source is fetched via the second with one warning. -/
theorem C4_fetch_fallback_witness :
    (fetchFile (fun t => decide (t.value = str "ftp://h/b.gz")) (str "aa")
        ⟨none, [⟨str "ftp", str "ftp://h/a.gz"⟩, ⟨str "ftp", str "ftp://h/b.gz"⟩]⟩).outcome.winner =
      some ⟨str "ftp", str "ftp://h/b.gz"⟩ ∧
    (fetchFile (fun t => decide (t.value = str "ftp://h/b.gz")) (str "aa")
        ⟨none, [⟨str "ftp", str "ftp://h/a.gz"⟩, ⟨str "ftp", str "ftp://h/b.gz"⟩]⟩).warnings =
      [⟨str "ftp", str "ftp://h/a.gz"⟩] := by
  have h := C4_fetch_source_fallback.1 (fun t => decide (t.value = str "ftp://h/b.gz")) (str "aa")
    ⟨none, [⟨str "ftp", str "ftp://h/a.gz"⟩, ⟨str "ftp", str "ftp://h/b.gz"⟩]⟩
    [⟨str "ftp", str "ftp://h/a.gz"⟩] ⟨str "ftp", str "ftp://h/b.gz"⟩ [] rfl
    (by decide) (by decide) (by decide)
  refine ⟨h.1, ?_⟩
  rw [h.2.1]
  decide

/-- C5: after a successful transfer, an existing stored checksum is compared
with the recomputed digest — a mismatch is a hard failure that keeps the stored
checksum untouched and leaves the transferred file on disk, while a match
succeeds unchanged; a file without a checksum gets the computed digest stored
(first fetch establishes trust). -/
theorem C5_checksum_verification (att : Source → Bool) (hash : List Char) (f : File) (s : Source)
    (hwin : (attemptSources att f.sources).2 = some s) :
    (∀ c, f.checksum = some c →
      (hash ≠ c →
        (fetchFile att hash f).outcome = .mismatch s f ∧
        (fetchFile att hash f).onDisk = true ∧
        ((fetchFile att hash f).outcome.resultFile).map File.checksum = some (some c)) ∧
      (hash = c → (fetchFile att hash f).outcome = .fetched s f)) ∧
    (f.checksum = none →
      (fetchFile att hash f).outcome = .fetched s { f with checksum := some hash }) := by
  constructor
  · intro c hc
    constructor
    · intro hne
      simp only [fetchFile, hwin, hc]
      rw [if_neg hne]
      exact ⟨rfl, rfl, by simp [FetchOutcome.resultFile, hc]⟩
    · intro heq
      simp only [fetchFile, hwin, hc]
      rw [if_pos heq]
  · intro hc
    simp only [fetchFile, hwin, hc]

/-- C5 witness: a stored checksum `"aa"` against a recomputed digest `"bb"`
is a mismatch that keeps the stored checksum; a checksum-free file gets the
digest stored. -/
theorem C5_checksum_witness :
    (fetchFile (fun _ => true) (str "bb")
        ⟨some (str "aa"), [⟨str "ftp", str "ftp://h/a.gz"⟩]⟩).outcome =
      .mismatch ⟨str "ftp", str "ftp://h/a.gz"⟩ ⟨some (str "aa"), [⟨str "ftp", str "ftp://h/a.gz"⟩]⟩ ∧
    (fetchFile (fun _ => true) (str "bb")
        ⟨none, [⟨str "ftp", str "ftp://h/a.gz"⟩]⟩).outcome =
      .fetched ⟨str "ftp", str "ftp://h/a.gz"⟩ ⟨some (str "bb"), [⟨str "ftp", str "ftp://h/a.gz"⟩]⟩ := by
  constructor
  · exact ((C5_checksum_verification (fun _ => true) (str "bb")
      ⟨some (str "aa"), [⟨str "ftp", str "ftp://h/a.gz"⟩]⟩ ⟨str "ftp", str "ftp://h/a.gz"⟩
      (by decide)).1 (str "aa") rfl).1 (by decide) |>.1
  · exact (C5_checksum_verification (fun _ => true) (str "bb")
      ⟨none, [⟨str "ftp", str "ftp://h/a.gz"⟩]⟩ ⟨str "ftp", str "ftp://h/a.gz"⟩
      (by decide)).2 rfl

/-- C9 counterexample: a persisted catalog whose stored library-type
(`"dna"`), pipeline-phase (`"cooked"`) and transport-kind (`"carrier"`) strings
all lie outside the closed vocabularies loads successfully — the claimed
load-time failure does not happen; the invalid values only fail later, when an
`enum` accessor re-parses them. -/
theorem C9_counterexample_load_accepts_invalid_vocabulary :
    loadDataField (.seq [.dict [(str "project", .strv (str "p")),
        (str "experiments", .seq [.dict [(str "experiment", .strv (str "e")),
          (str "types", .seq [.dict [(str "type", .strv (str "dna")),
            (str "phases", .seq [.dict [(str "phase", .strv (str "cooked")),
              (str "files", .seq [.dict [(str "checksum", .strv (str "00")),
                (str "sources", .seq [.dict [(str "type", .strv (str "carrier")),
                  (str "value", .strv (str "x"))]])]])]])]])]])]]) =
      some [⟨str "p", [⟨str "e", [⟨str "dna",
        [⟨str "cooked", none, [⟨some (str "00"), [⟨str "carrier", str "x"⟩]⟩]⟩]⟩]⟩]⟩] ∧
    EType.parse (str "dna") = none ∧
    EPhase.parse (str "cooked") = none ∧
    (Source.mk (str "carrier") (str "x")).enum = none := by
  exact ⟨rfl, by decide, by decide, by decide⟩

/-- C9 (amended): catalog load performs no vocabulary validation — the
enum-like fields are plain strings to `from_dict`, so any stored library-type,
pipeline-phase or transport-kind string loads successfully; the closed
vocabularies are checked only when an `enum` accessor is used, which fails
(raises `ValueError`) exactly for strings outside them. -/
theorem C9_amended_no_vocabulary_check_at_load (t ph sk cs idv loc pv ev : List Char) :
    loadDataField (.seq [.dict [(str "project", .strv pv),
        (str "experiments", .seq [.dict [(str "experiment", .strv ev),
          (str "types", .seq [.dict [(str "type", .strv t),
            (str "phases", .seq [.dict [(str "phase", .strv ph),
              (str "identifier", .strv idv),
              (str "files", .seq [.dict [(str "checksum", .strv cs),
                (str "sources", .seq [.dict [(str "type", .strv sk),
                  (str "value", .strv loc)]])]])]])]])]])]]) =
      some [⟨pv, [⟨ev, [⟨t, [⟨ph, some idv, [⟨some cs, [⟨sk, loc⟩]⟩]⟩]⟩]⟩]⟩] ∧
    ((Source.mk sk loc).enum = none ↔
      sk ∉ [str "aspera", str "ftp", str "http", str "local", str "ssh"]) ∧
    (EType.parse t = none ↔ t ∉ [str "chip", str "chip-input", str "rna"]) ∧
    (EPhase.parse ph = none ↔ ph ≠ str "raw") := by
  refine ⟨rfl, ?_, ?_, ?_⟩
  · unfold Source.enum ESource.parse
    split_ifs <;> simp_all
  · unfold EType.parse
    split_ifs <;> simp_all
  · unfold EPhase.parse
    split_ifs <;> simp_all

/-- Unfolding equation for the crash case of the per-entry file loop. -/
theorem entryFlag_cons_none (ex : List Char → Bool) (hs : List Char → List Char)
    (dir : List Char) (verify : Bool) (f : File) (fs : List File)
    (hn : get_file_name f = none) :
    entryFlag ex hs dir verify (f :: fs) = none := by
  have h0 : entryFlag ex hs dir verify (f :: fs) =
      match get_file_name f with
      | none => none
      | some fn =>
        if !ex (dir ++ ['/'] ++ fn) then some true
        else if verify && decide (some (hs (dir ++ ['/'] ++ fn)) ≠ f.checksum) then some true
        else entryFlag ex hs dir verify fs := rfl
  rw [h0, hn]

/-- Unfolding equation for one iteration of the per-entry file loop. -/
theorem entryFlag_cons_some (ex : List Char → Bool) (hs : List Char → List Char)
    (dir : List Char) (verify : Bool) (f : File) (fs : List File) (fn : List Char)
    (hn : get_file_name f = some fn) :
    entryFlag ex hs dir verify (f :: fs) =
      if !ex (dir ++ ['/'] ++ fn) then some true
      else if verify && decide (some (hs (dir ++ ['/'] ++ fn)) ≠ f.checksum) then some true
      else entryFlag ex hs dir verify fs := by
  have h0 : entryFlag ex hs dir verify (f :: fs) =
      match get_file_name f with
      | none => none
      | some fn =>
        if !ex (dir ++ ['/'] ++ fn) then some true
        else if verify && decide (some (hs (dir ++ ['/'] ++ fn)) ≠ f.checksum) then some true
        else entryFlag ex hs dir verify fs := rfl
  rw [h0, hn]

/-- The per-entry file loop flags the entry whenever it reaches a file with an
absent checksum that exists on disk — the freshly computed digest can never
equal an absent checksum. -/
theorem entryFlag_true_of_absent_checksum (ex : List Char → Bool) (hs : List Char → List Char)
    (dir : List Char) (fs : List File) (b : Bool) (f : File)
    (hrun : entryFlag ex hs dir true fs = some b)
    (hf : f ∈ fs) (hcs : f.checksum = none)
    (hex : ∀ f' ∈ fs, ∀ fn, get_file_name f' = some fn → ex (dir ++ ['/'] ++ fn) = true) :
    b = true := by
  induction fs with
  | nil => simp at hf
  | cons f0 fs ih =>
    cases hn : get_file_name f0 with
    | none =>
      rw [entryFlag_cons_none ex hs dir true f0 fs hn] at hrun
      exact absurd hrun (by simp)
    | some fn =>
      rw [entryFlag_cons_some ex hs dir true f0 fs fn hn] at hrun
      have hex0 : ex (dir ++ ['/'] ++ fn) = true :=
        hex f0 (List.mem_cons_self _ _) fn hn
      rw [hex0] at hrun
      simp only [Bool.not_true, Bool.false_eq_true, if_false, Bool.true_and] at hrun
      by_cases hd : some (hs (dir ++ ['/'] ++ fn)) ≠ f0.checksum
      · rw [if_pos (by simpa using hd)] at hrun
        simpa using hrun.symm
      · rw [if_neg (by simpa using hd)] at hrun
        have hne : f ≠ f0 := by
          intro he
          rw [he] at hcs
          rw [hcs] at hd
          simp at hd
        have hf' : f ∈ fs := by
          rcases List.mem_cons.1 hf with h | h
          · exact absurd h hne
          · exact h
        exact ih hrun hf' fun f' hmem fn' hn' =>
          hex f' (List.mem_cons_of_mem _ hmem) fn' hn'

/-- Unfolding equation for `checkStep` when the directory resolves. -/
theorem checkStep_some_dir (ex : List Char → Bool) (hs : List Char → List Char)
    (dataDir : List Char) (verify : Bool) (acc : List Entry) (e : Entry) (dir : List Char)
    (hd : get_file_directory dataDir e = some dir) :
    checkStep ex hs dataDir verify acc e =
      (entryFlag ex hs dir verify e.files).map fun b => if b then acc ++ [e] else acc := by
  unfold checkStep
  rw [hd]

/-- Unfolding equation for `checkStep` when the directory raises. -/
theorem checkStep_none_dir (ex : List Char → Bool) (hs : List Char → List Char)
    (dataDir : List Char) (verify : Bool) (acc : List Entry) (e : Entry)
    (hd : get_file_directory dataDir e = none) :
    checkStep ex hs dataDir verify acc e = none := by
  unfold checkStep
  rw [hd]

/-- The `checkStep` accumulator only grows. -/
theorem checkStep_mono (ex : List Char → Bool) (hs : List Char → List Char) (dataDir : List Char)
    (verify : Bool) (acc acc1 : List Entry) (e : Entry)
    (h : checkStep ex hs dataDir verify acc e = some acc1) :
    ∀ x ∈ acc, x ∈ acc1 := by
  cases hd : get_file_directory dataDir e with
  | none =>
    rw [checkStep_none_dir ex hs dataDir verify acc e hd] at h
    exact absurd h (by simp)
  | some dir =>
    rw [checkStep_some_dir ex hs dataDir verify acc e dir hd] at h
    cases hfl : entryFlag ex hs dir verify e.files with
    | none => rw [hfl] at h; exact absurd h (by simp)
    | some b =>
      rw [hfl] at h
      cases b with
      | true =>
        have h' : acc ++ [e] = acc1 := by
          have h2 : some (acc ++ [e]) = some acc1 := h
          exact Option.some_inj.1 h2
        intro x hx
        rw [← h']
        exact List.mem_append_left _ hx
      | false =>
        have h' : acc = acc1 := by
          have h2 : some acc = some acc1 := h
          exact Option.some_inj.1 h2
        intro x hx
        rwa [← h']

/-- Structure of a successful `check_files` fold: the accumulator is preserved,
every processed entry's step succeeded on some accumulator, and an entry whose
step always appends it ends up in the result. -/
theorem checkFold_mem (ex : List Char → Bool) (hs : List Char → List Char) (dataDir : List Char)
    (verify : Bool) :
    ∀ (l : List Entry) (acc res : List Entry),
      l.foldlM (checkStep ex hs dataDir verify) acc = some res →
      (∀ x ∈ acc, x ∈ res) ∧
      (∀ e ∈ l, ∃ acc1 r, checkStep ex hs dataDir verify acc1 e = some r) ∧
      (∀ e ∈ l, (∀ acc', checkStep ex hs dataDir verify acc' e = some (acc' ++ [e])) →
        e ∈ res) := by
  intro l
  induction l with
  | nil =>
    intro acc res h
    simp only [List.foldlM_nil] at h
    obtain rfl : acc = res := by simpa using h
    exact ⟨fun x hx => hx, by simp, by simp⟩
  | cons a l ih =>
    intro acc res h
    rw [List.foldlM_cons] at h
    cases hstep : checkStep ex hs dataDir verify acc a with
    | none => rw [hstep] at h; exact absurd h (by simp)
    | some acc1 =>
      rw [hstep] at h
      have h2 : List.foldlM (checkStep ex hs dataDir verify) acc1 l = some res := h
      obtain ⟨mono1, steps1, mem1⟩ := ih acc1 res h2
      refine ⟨?_, ?_, ?_⟩
      · intro x hx
        exact mono1 x (checkStep_mono ex hs dataDir verify acc acc1 a hstep x hx)
      · intro e he
        rcases List.mem_cons.1 he with rfl | he'
        · exact ⟨acc, acc1, hstep⟩
        · exact steps1 e he'
      · intro e he hall
        rcases List.mem_cons.1 he with rfl | he'
        · have : acc1 = acc ++ [e] := by
            have h3 := hall acc
            rw [hstep] at h3
            exact Option.some_inj.1 h3
          exact mono1 e (by rw [this]; exact List.mem_append_right _ (by simp))
        · exact mem1 e he' hall

/-- C10: with checksum verification enabled, an entry containing a file whose
stored checksum is absent is flagged as needing refresh by `check_files` even
when all of its files exist intact on disk, because the computed on-disk digest
is compared against the absent checksum and can never equal it. -/
theorem C10_absent_checksum_flags_entry (ex : List Char → Bool) (hs : List Char → List Char)
    (dataDir : List Char) (d : Data) (res : List Entry) (e : Entry) (f : File) (dir : List Char)
    (hrun : check_files ex hs dataDir d true = some res)
    (he : e ∈ iterData d)
    (hdir : get_file_directory dataDir e = some dir)
    (hf : f ∈ e.files) (hcs : f.checksum = none)
    (hex : ∀ f' ∈ e.files, ∀ fn, get_file_name f' = some fn → ex (dir ++ ['/'] ++ fn) = true) :
    e ∈ res := by
  unfold check_files at hrun
  obtain ⟨mono1, steps1, mem1⟩ := checkFold_mem ex hs dataDir true (iterData d) [] res hrun
  obtain ⟨acc1, r, hstep⟩ := steps1 e he
  rw [checkStep_some_dir ex hs dataDir true acc1 e dir hdir] at hstep
  have hfl : ∃ b, entryFlag ex hs dir true e.files = some b := by
    cases hfl' : entryFlag ex hs dir true e.files with
    | none => rw [hfl'] at hstep; exact absurd hstep (by simp)
    | some b => exact ⟨b, rfl⟩
  obtain ⟨b, hb⟩ := hfl
  have hbt : b = true := entryFlag_true_of_absent_checksum ex hs dir e.files b f hb hf hcs hex
  subst hbt
  exact mem1 e he fun acc' => by
    rw [checkStep_some_dir ex hs dataDir true acc' e dir hdir, hb]
    rfl

/-- C10 witness: a one-entry catalog whose only file has no stored checksum is
flagged by `check_files` although the file exists on disk. -/
theorem C10_absent_checksum_witness :
    ({ project := some (str "p"), experiment := some (str "x"), type := some EType.rna,
       phase := some EPhase.raw, identifier := none,
       files := [⟨none, [⟨str "aspera", str "h:a/b.gz"⟩]⟩] } : Entry) ∈
      [({ project := some (str "p"), experiment := some (str "x"), type := some EType.rna,
          phase := some EPhase.raw, identifier := none,
          files := [⟨none, [⟨str "aspera", str "h:a/b.gz"⟩]⟩] } : Entry)] := by
  exact C10_absent_checksum_flags_entry (fun _ => true) (fun _ => str "aa") (str "data")
    [⟨str "p", [⟨str "x", [⟨str "rna", [⟨str "raw", none,
      [⟨none, [⟨str "aspera", str "h:a/b.gz"⟩]⟩]⟩]⟩]⟩]⟩]
    [({ project := some (str "p"), experiment := some (str "x"), type := some EType.rna,
        phase := some EPhase.raw, identifier := none,
        files := [⟨none, [⟨str "aspera", str "h:a/b.gz"⟩]⟩] } : Entry)]
    ({ project := some (str "p"), experiment := some (str "x"), type := some EType.rna,
       phase := some EPhase.raw, identifier := none,
       files := [⟨none, [⟨str "aspera", str "h:a/b.gz"⟩]⟩] } : Entry)
    ⟨none, [⟨str "aspera", str "h:a/b.gz"⟩]⟩
    (str "data" ++ ['/'] ++ (str "p" ++ ['/'] ++ str "x" ++ ['@'] ++ str "rna" ++ ['/'] ++ str "raw"))
    (by decide) (by decide) (by decide) (by decide) rfl
    (fun _ _ _ _ => rfl)

/-- Unfolding equation for one iteration of the `add_data` loop. -/
theorem addData_cons_eq (d : Data) (e : Entry) (es : List Entry) :
    addData d (e :: es) =
      match addOne d e with
      | .ok d' =>
        match addData d' es with
        | .ok dfin n => .ok dfin (n + 1)
        | r => r
      | .error .duplicate => .dup d e
      | .error .notComplete => .invalid d e := rfl

/-- Unfolding equation for one iteration of the `add_data` loop when the entry
goes through. -/
theorem addData_cons_ok (d : Data) (e : Entry) (es : List Entry) (d' : Data)
    (h : addOne d e = .ok d') :
    addData d (e :: es) =
      match addData d' es with
      | .ok dfin n => .ok dfin (n + 1)
      | r => r := by
  rw [addData_cons_eq, h]

/-- Unfolding equation for the duplicate-entry failure of the `add_data` loop. -/
theorem addData_cons_dup (d : Data) (e : Entry) (es : List Entry)
    (h : addOne d e = .error .duplicate) :
    addData d (e :: es) = .dup d e := by
  rw [addData_cons_eq, h]

/-- Unfolding equation for the incomplete-entry failure of the `add_data` loop. -/
theorem addData_cons_invalid (d : Data) (e : Entry) (es : List Entry)
    (h : addOne d e = .error .notComplete) :
    addData d (e :: es) = .invalid d e := by
  rw [addData_cons_eq, h]

/-- Composition of the `add_data` loop across an append, when the first batch
succeeds. -/
theorem addData_append_ok (d : Data) (l1 : List Entry) (d1 : Data) (n1 : Nat)
    (h : addData d l1 = .ok d1 n1) (l2 : List Entry) :
    addData d (l1 ++ l2) =
      match addData d1 l2 with
      | .ok d2 n2 => .ok d2 (n1 + n2)
      | .dup dd ee => .dup dd ee
      | .invalid dd ee => .invalid dd ee := by
  induction l1 generalizing d n1 with
  | nil =>
    obtain ⟨rfl, rfl⟩ : d = d1 ∧ 0 = n1 := by
      have h' : AddResult.ok d 0 = .ok d1 n1 := h
      cases h'
      exact ⟨rfl, rfl⟩
    simp only [List.nil_append]
    cases hl : addData d l2 with
    | ok d2 n2 => simp
    | dup dd ee => rfl
    | invalid dd ee => rfl
  | cons e l1 ih =>
    cases ha : addOne d e with
    | ok d' =>
      rw [addData_cons_ok d e l1 d' ha] at h
      cases hr : addData d' l1 with
      | ok dm nm =>
        rw [hr] at h
        obtain ⟨rfl, rfl⟩ : dm = d1 ∧ nm + 1 = n1 := by
          have h' : AddResult.ok dm (nm + 1) = .ok d1 n1 := h
          cases h'
          exact ⟨rfl, rfl⟩
        show addData d (e :: (l1 ++ l2)) = _
        rw [addData_cons_ok d e (l1 ++ l2) d' ha, ih d' nm hr]
        cases hl : addData dm l2 with
        | ok d2 n2 =>
          show AddResult.ok d2 (nm + n2 + 1) = .ok d2 (nm + 1 + n2)
          congr 1
          omega
        | dup dd ee => rfl
        | invalid dd ee => rfl
      | dup dd ee =>
        rw [hr] at h
        exact absurd h (by simp)
      | invalid dd ee =>
        rw [hr] at h
        exact absurd h (by simp)
    | error err =>
      cases err with
      | duplicate =>
        rw [addData_cons_dup d e l1 ha] at h
        exact absurd h (by simp)
      | notComplete =>
        rw [addData_cons_invalid d e l1 ha] at h
        exact absurd h (by simp)

/-- `add_data` hits the duplicate-entry error exactly when the full path of a
complete entry already resolves in the tree. -/
theorem addOne_duplicate_iff (d : Data) (e : Entry) (hc : e.complete) :
    addOne d e = .error .duplicate ↔ findPhaseNode d e.key ≠ none := by
  obtain ⟨hp, hx, ht, hph⟩ := hc
  cases hep : e.project with
  | none => rw [hep] at hp; simp at hp
  | some p =>
  cases hex : e.experiment with
  | none => rw [hex] at hx; simp at hx
  | some x =>
  cases het : e.type with
  | none => rw [het] at ht; simp at ht
  | some t =>
  cases heph : e.phase with
  | none => rw [heph] at hph; simp at hph
  | some ph =>
  have hkey : e.key = (p, x, t.value, ph.value) := by
    simp [Entry.key, hep, hex, het, heph]
  rw [hkey]
  unfold addOne findPhaseNode
  rw [hep, hex, het, heph]
  dsimp only
  cases d.getProject p with
  | none => simp
  | some proj =>
    dsimp only
    cases proj.getExperiment x with
    | none => simp
    | some exp =>
      dsimp only
      cases exp.getType t.value with
      | none => simp
      | some ty =>
        dsimp only
        cases ty.getPhase ph.value with
        | none => simp
        | some phn => simp

/-- C3: when an entry's terminal phase already exists on its path, the
`add_data` call fails with the duplicate-entry error naming that entry; the
failing entry is not applied at all, while every entry added earlier in the
same call remains applied (the error state is exactly the catalog after the
earlier adds), and later entries are not processed. -/
theorem C3_duplicate_add_no_rollback (d : Data) (pre rest : List Entry) (e : Entry)
    (d' : Data) (n : Nat) (hpre : addData d pre = .ok d' n) (hc : e.complete)
    (hdup : findPhaseNode d' e.key ≠ none) :
    addData d (pre ++ e :: rest) = .dup d' e := by
  have hd : addOne d' e = .error .duplicate := (addOne_duplicate_iff d' e hc).2 hdup
  rw [addData_append_ok d pre d' n hpre (e :: rest), addData_cons_dup d' e rest hd]

/-- C3 witness: adding the same complete entry twice from the empty catalog
fails with the duplicate-entry error while the first add remains applied. -/
theorem C3_duplicate_witness :
    addData []
        ([(⟨some (str "p"), some (str "x"), some EType.rna, some EPhase.raw, none, []⟩ : Entry)] ++
          (⟨some (str "p"), some (str "x"), some EType.rna, some EPhase.raw, none, []⟩ : Entry) ::
            [(⟨some (str "q"), some (str "x"), some EType.rna, some EPhase.raw, none, []⟩ : Entry)]) =
      .dup [⟨str "p", [⟨str "x", [⟨str "rna", [⟨str "raw", none, []⟩]⟩]⟩]⟩]
        (⟨some (str "p"), some (str "x"), some EType.rna, some EPhase.raw, none, []⟩ : Entry) := by
  exact C3_duplicate_add_no_rollback []
    [(⟨some (str "p"), some (str "x"), some EType.rna, some EPhase.raw, none, []⟩ : Entry)]
    [(⟨some (str "q"), some (str "x"), some EType.rna, some EPhase.raw, none, []⟩ : Entry)]
    (⟨some (str "p"), some (str "x"), some EType.rna, some EPhase.raw, none, []⟩ : Entry)
    [⟨str "p", [⟨str "x", [⟨str "rna", [⟨str "raw", none, []⟩]⟩]⟩]⟩] 1
    (by decide) (by decide) (by decide)

/-! ### Generic lemmas about the first-match list surgery -/

/-- A successful `find?` splits the list at the first match. -/
theorem find?_eq_some_decomp {α : Type} (p : α → Bool) (l : List α) (a : α)
    (h : l.find? p = some a) :
    ∃ l1 l2, l = l1 ++ a :: l2 ∧ (∀ b ∈ l1, p b = false) ∧ p a = true := by
  induction l with
  | nil => simp at h
  | cons x xs ih =>
    by_cases hx : p x
    · rw [List.find?_cons_of_pos _ hx] at h
      obtain rfl : x = a := by simpa using h
      exact ⟨[], xs, rfl, by simp, hx⟩
    · rw [List.find?_cons_of_neg _ (by simpa using hx)] at h
      obtain ⟨l1, l2, rfl, hl1, ha⟩ := ih h
      exact ⟨x :: l1, l2, rfl, by
        intro b hb
        rcases List.mem_cons.1 hb with rfl | hb
        · simpa using hx
        · exact hl1 b hb, ha⟩

/-- `updateFirst` on a split list rewrites exactly the split point. -/
theorem updateFirst_append {α : Type} (p : α → Bool) (f : α → α) (l1 l2 : List α) (a : α)
    (h1 : ∀ b ∈ l1, p b = false) (ha : p a = true) :
    updateFirst p f (l1 ++ a :: l2) = l1 ++ f a :: l2 := by
  induction l1 with
  | nil => simp [updateFirst, ha]
  | cons x xs ih =>
    have hx : p x = false := h1 x (List.mem_cons_self _ _)
    simp only [List.cons_append, updateFirst, hx]
    rw [if_neg (by simp [hx])]
    exact congrArg (x :: ·) (ih fun b hb => h1 b (List.mem_cons_of_mem _ hb))

/-- `removeFirst` on a split list removes exactly the split point. -/
theorem removeFirst_append {α : Type} (p : α → Bool) (l1 l2 : List α) (a : α)
    (h1 : ∀ b ∈ l1, p b = false) (ha : p a = true) :
    removeFirst p (l1 ++ a :: l2) = l1 ++ l2 := by
  induction l1 with
  | nil => simp [removeFirst, ha]
  | cons x xs ih =>
    have hx : p x = false := h1 x (List.mem_cons_self _ _)
    simp only [List.cons_append, removeFirst]
    rw [if_neg (by simp [hx])]
    exact congrArg (x :: ·) (ih fun b hb => h1 b (List.mem_cons_of_mem _ hb))

/-- `dropOrReplace` on a split list acts exactly at the split point. -/
theorem dropOrReplace_append {α : Type} (p : α → Bool) (g : α → Option α) (l1 l2 : List α)
    (a : α) (h1 : ∀ b ∈ l1, p b = false) (ha : p a = true) :
    dropOrReplace p g (l1 ++ a :: l2) =
      l1 ++ (match g a with | some a' => a' :: l2 | none => l2) := by
  induction l1 with
  | nil => cases hg : g a <;> simp [dropOrReplace, ha, hg]
  | cons x xs ih =>
    have hx : p x = false := h1 x (List.mem_cons_self _ _)
    simp only [List.cons_append, dropOrReplace]
    rw [if_neg (by simp [hx])]
    exact congrArg (x :: ·) (ih fun b hb => h1 b (List.mem_cons_of_mem _ hb))

/-- Under name uniqueness, `find?` by name returns exactly the member with that
name. -/
theorem find?_name_unique {α β : Type} [DecidableEq β] (key : α → β) (l : List α)
    (hnd : (l.map key).Nodup) (a : α) (ha : a ∈ l) (v : β) (hk : key a = v) :
    l.find? (fun b => decide (key b = v)) = some a := by
  induction l with
  | nil => simp at ha
  | cons x xs ih =>
    rcases List.mem_cons.1 ha with rfl | ha'
    · rw [List.find?_cons_of_pos _ (by simp [hk])]
    · have hxv : ¬ (key x = v) := by
        intro he
        have : key a ∈ xs.map key := List.mem_map_of_mem key ha'
        rw [hk, ← he] at this
        exact (List.nodup_cons.1 (by simpa using hnd)).1 this
      rw [List.find?_cons_of_neg _ (by simpa using hxv)]
      exact ih (List.nodup_cons.1 (by simpa using hnd)).2 ha'

/-- Under name uniqueness, two members with the same name are equal. -/
theorem mem_name_unique {α β : Type} [DecidableEq β] (key : α → β) (l : List α)
    (hnd : (l.map key).Nodup) (a b : α) (ha : a ∈ l) (hb : b ∈ l) (hk : key a = key b) :
    a = b := by
  have h1 := find?_name_unique key l hnd a ha (key b) hk
  have h2 := find?_name_unique key l hnd b hb (key b) rfl
  rw [h1] at h2
  exact Option.some_inj.1 h2

/-! ### Key-list algebra for the catalog tree -/

/-- `phKeys` as a composed map. -/
theorem phKeys_eq_map (p x ts : List Char) (phs : List Phase) :
    phKeys p x ts phs = (phs.map Phase.phase).map fun s => (p, x, ts, s) := by
  simp [phKeys, List.map_map]

/-- Components of a key below a type node. -/
theorem mem_phKeys {p x ts : List Char} {phs : List Phase} {k : Key}
    (h : k ∈ phKeys p x ts phs) :
    k.1 = p ∧ k.2.1 = x ∧ k.2.2.1 = ts ∧ ∃ phn ∈ phs, k.2.2.2 = phn.phase := by
  simp only [phKeys, List.mem_map] at h
  obtain ⟨phn, hm, rfl⟩ := h
  exact ⟨rfl, rfl, rfl, phn, hm, rfl⟩

/-- Components of a key below an experiment node. -/
theorem mem_tyKeys {p x : List Char} {tys : List TypeNode} {k : Key}
    (h : k ∈ tyKeys p x tys) :
    k.1 = p ∧ k.2.1 = x ∧ ∃ ty ∈ tys, k.2.2.1 = ty.type ∧
      ∃ phn ∈ ty.phases, k.2.2.2 = phn.phase := by
  simp only [tyKeys, List.mem_flatMap] at h
  obtain ⟨ty, hty, hk⟩ := h
  obtain ⟨h1, h2, h3, phn, hphn, h4⟩ := mem_phKeys hk
  exact ⟨h1, h2, ty, hty, h3, phn, hphn, h4⟩

/-- Components of a key below a project node. -/
theorem mem_exKeys {p : List Char} {exs : List Experiment} {k : Key}
    (h : k ∈ exKeys p exs) :
    k.1 = p ∧ ∃ ex ∈ exs, k.2.1 = ex.experiment ∧ ∃ ty ∈ ex.types, k.2.2.1 = ty.type ∧
      ∃ phn ∈ ty.phases, k.2.2.2 = phn.phase := by
  simp only [exKeys, List.mem_flatMap] at h
  obtain ⟨ex, hex, hk⟩ := h
  obtain ⟨h1, h2, rest⟩ := mem_tyKeys hk
  exact ⟨h1, ex, hex, h2, rest⟩

/-- Components of a key in the tree. -/
theorem mem_keyList {d : Data} {k : Key} (h : k ∈ keyList d) :
    ∃ pr ∈ d, k.1 = pr.project ∧ ∃ ex ∈ pr.experiments, k.2.1 = ex.experiment ∧
      ∃ ty ∈ ex.types, k.2.2.1 = ty.type ∧ ∃ phn ∈ ty.phases, k.2.2.2 = phn.phase := by
  simp only [keyList, List.mem_flatMap] at h
  obtain ⟨pr, hpr, hk⟩ := h
  obtain ⟨h1, rest⟩ := mem_exKeys hk
  exact ⟨pr, hpr, h1, rest⟩

/-- Introduction form for tree keys. -/
theorem mem_keyList_intro {d : Data} {pr : Project} {ex : Experiment} {ty : TypeNode}
    {phn : Phase} (hpr : pr ∈ d) (hex : ex ∈ pr.experiments) (hty : ty ∈ ex.types)
    (hphn : phn ∈ ty.phases) :
    (pr.project, ex.experiment, ty.type, phn.phase) ∈ keyList d := by
  simp only [keyList, List.mem_flatMap]
  refine ⟨pr, hpr, ?_⟩
  simp only [exKeys, List.mem_flatMap]
  refine ⟨ex, hex, ?_⟩
  simp only [tyKeys, List.mem_flatMap]
  refine ⟨ty, hty, ?_⟩
  simp only [phKeys, List.mem_map]
  exact ⟨phn, hphn, rfl⟩

/-- Distinct phase names give distinct keys. -/
theorem phKeys_nodup (p x ts : List Char) (phs : List Phase)
    (h : (phs.map Phase.phase).Nodup) : (phKeys p x ts phs).Nodup := by
  rw [phKeys_eq_map]
  exact h.map fun s1 s2 he => by simpa using he

/-- Distinct type names (with distinct phase names inside) give distinct keys. -/
theorem tyKeys_nodup (p x : List Char) (tys : List TypeNode)
    (hnames : (tys.map TypeNode.type).Nodup)
    (hinner : ∀ ty ∈ tys, (ty.phases.map Phase.phase).Nodup) : (tyKeys p x tys).Nodup := by
  induction tys with
  | nil => simp [tyKeys]
  | cons ty tys ih =>
    simp only [tyKeys, List.flatMap_cons]
    rw [List.map_cons] at hnames
    have hnd := List.nodup_cons.1 hnames
    refine List.Nodup.append ?_ ?_ ?_
    · exact phKeys_nodup p x ty.type ty.phases (hinner ty (List.mem_cons_self _ _))
    · exact ih hnd.2 fun ty' h' => hinner ty' (List.mem_cons_of_mem _ h')
    · intro k hk1 hk2
      obtain ⟨_, _, he1, _⟩ := mem_phKeys hk1
      obtain ⟨_, _, ty', hty', he2, _⟩ := mem_tyKeys hk2
      exact hnd.1 (by rw [← he1, he2]; exact List.mem_map_of_mem TypeNode.type hty')

/-- Distinct experiment names (with uniqueness inside) give distinct keys. -/
theorem exKeys_nodup (p : List Char) (exs : List Experiment)
    (hnames : (exs.map Experiment.experiment).Nodup)
    (hinner : ∀ ex ∈ exs, (ex.types.map TypeNode.type).Nodup ∧
      ∀ ty ∈ ex.types, (ty.phases.map Phase.phase).Nodup) : (exKeys p exs).Nodup := by
  induction exs with
  | nil => simp [exKeys]
  | cons ex exs ih =>
    simp only [exKeys, List.flatMap_cons]
    rw [List.map_cons] at hnames
    have hnd := List.nodup_cons.1 hnames
    refine List.Nodup.append ?_ ?_ ?_
    · exact tyKeys_nodup p ex.experiment ex.types (hinner ex (List.mem_cons_self _ _)).1
        (hinner ex (List.mem_cons_self _ _)).2
    · exact ih hnd.2 fun ex' h' => hinner ex' (List.mem_cons_of_mem _ h')
    · intro k hk1 hk2
      obtain ⟨_, he1, _⟩ := mem_tyKeys hk1
      obtain ⟨_, ex', hex', he2, _⟩ := mem_exKeys hk2
      exact hnd.1 (by rw [← he1, he2]; exact List.mem_map_of_mem Experiment.experiment hex')

/-- Name uniqueness at every level makes the tree's key list duplicate-free. -/
theorem keyList_nodup (d : Data) (hw : namesUnique d) : (keyList d).Nodup := by
  induction d with
  | nil => simp [keyList]
  | cons pr d ih =>
    obtain ⟨hnames, hinner⟩ := hw
    rw [List.map_cons] at hnames
    have hnd := List.nodup_cons.1 hnames
    simp only [keyList, List.flatMap_cons]
    refine List.Nodup.append ?_ ?_ ?_
    · have h1 := hinner pr (List.mem_cons_self _ _)
      exact exKeys_nodup pr.project pr.experiments h1.1 h1.2
    · exact ih ⟨hnd.2, fun pr' h' => hinner pr' (List.mem_cons_of_mem _ h')⟩
    · intro k hk1 hk2
      obtain ⟨he1, _⟩ := mem_exKeys hk1
      obtain ⟨pr', hpr', he2, _⟩ :=
        mem_keyList (show k ∈ keyList d by simpa [keyList] using hk2)
      exact hnd.1 (by rw [← he1, he2]; exact List.mem_map_of_mem Project.project hpr')

/-- `keyList` distributes over append. -/
theorem keyList_append (d1 d2 : Data) : keyList (d1 ++ d2) = keyList d1 ++ keyList d2 := by
  simp [keyList, List.flatMap_append]

/-- `keyList` on a cons. -/
theorem keyList_cons (pr : Project) (d : Data) :
    keyList (pr :: d) = exKeys pr.project pr.experiments ++ keyList d := by
  simp [keyList]

/-- `exKeys` distributes over append. -/
theorem exKeys_append (p : List Char) (l1 l2 : List Experiment) :
    exKeys p (l1 ++ l2) = exKeys p l1 ++ exKeys p l2 := by
  simp [exKeys, List.flatMap_append]

/-- `exKeys` on a cons. -/
theorem exKeys_cons (p : List Char) (ex : Experiment) (l : List Experiment) :
    exKeys p (ex :: l) = tyKeys p ex.experiment ex.types ++ exKeys p l := by
  simp [exKeys]

/-- `tyKeys` distributes over append. -/
theorem tyKeys_append (p x : List Char) (l1 l2 : List TypeNode) :
    tyKeys p x (l1 ++ l2) = tyKeys p x l1 ++ tyKeys p x l2 := by
  simp [tyKeys, List.flatMap_append]

/-- `tyKeys` on a cons. -/
theorem tyKeys_cons (p x : List Char) (ty : TypeNode) (l : List TypeNode) :
    tyKeys p x (ty :: l) = phKeys p x ty.type ty.phases ++ tyKeys p x l := by
  simp [tyKeys]

/-- `phKeys` distributes over append. -/
theorem phKeys_append (p x ts : List Char) (l1 l2 : List Phase) :
    phKeys p x ts (l1 ++ l2) = phKeys p x ts l1 ++ phKeys p x ts l2 := by
  simp [phKeys]

/-- A present key resolves through the nested lookups, under name uniqueness. -/
theorem findPhaseNode_eq_of_mem (d : Data) (kp kx kt ks : List Char) (hw : namesUnique d)
    (hk : (kp, kx, kt, ks) ∈ keyList d) :
    ∃ phn, findPhaseNode d (kp, kx, kt, ks) = some phn ∧ phn.phase = ks := by
  obtain ⟨pr, hpr, h1, ex, hex, h2, ty, hty, h3, phn, hphn, h4⟩ := mem_keyList hk
  obtain ⟨hndP, hinP⟩ := hw
  have hP : d.getProject kp = some pr :=
    find?_name_unique Project.project d hndP pr hpr kp h1.symm
  obtain ⟨hndX, hinX⟩ := hinP pr hpr
  have hX : pr.getExperiment kx = some ex :=
    find?_name_unique Experiment.experiment pr.experiments hndX ex hex kx h2.symm
  obtain ⟨hndT, hinT⟩ := hinX ex hex
  have hT : ex.getType kt = some ty :=
    find?_name_unique TypeNode.type ex.types hndT ty hty kt h3.symm
  have hndPh := hinT ty hty
  have hPh : ty.getPhase ks = some phn :=
    find?_name_unique Phase.phase ty.phases hndPh phn hphn ks h4.symm
  refine ⟨phn, ?_, h4.symm⟩
  unfold findPhaseNode
  dsimp only
  rw [hP]
  dsimp only
  rw [hX]
  dsimp only
  rw [hT]
  dsimp only
  exact hPh

/-- A key that resolves through the nested lookups is present. -/
theorem mem_of_findPhaseNode (d : Data) (kp kx kt ks : List Char) (phn : Phase)
    (h : findPhaseNode d (kp, kx, kt, ks) = some phn) :
    (kp, kx, kt, ks) ∈ keyList d ∧ phn.phase = ks := by
  unfold findPhaseNode at h
  dsimp only at h
  cases hP : d.getProject kp with
  | none => rw [hP] at h; exact absurd h (by simp)
  | some pr =>
    rw [hP] at h
    dsimp only at h
    cases hX : pr.getExperiment kx with
    | none => rw [hX] at h; exact absurd h (by simp)
    | some ex =>
      rw [hX] at h
      dsimp only at h
      cases hT : ex.getType kt with
      | none => rw [hT] at h; exact absurd h (by simp)
      | some ty =>
        rw [hT] at h
        dsimp only at h
        have hprm : pr ∈ d := List.mem_of_find?_eq_some hP
        have hprn : pr.project = kp := by simpa using List.find?_some hP
        have hexm : ex ∈ pr.experiments := List.mem_of_find?_eq_some hX
        have hexn : ex.experiment = kx := by simpa using List.find?_some hX
        have htym : ty ∈ ex.types := List.mem_of_find?_eq_some hT
        have htyn : ty.type = kt := by simpa using List.find?_some hT
        have hphm : phn ∈ ty.phases := List.mem_of_find?_eq_some h
        have hphn2 : phn.phase = ks := by simpa using List.find?_some h
        constructor
        · have := mem_keyList_intro hprm hexm htym hphm
          rwa [hprn, hexn, htyn, hphn2] at this
        · exact hphn2

/-- Inserting one element in the middle is a permutation with consing it. -/
theorem perm_of_eq_append_insert {α : Type} {d1k dk X Y : List α} {k : α}
    (h1 : d1k = X ++ k :: Y) (h2 : dk = X ++ Y) : List.Perm d1k (k :: dk) := by
  subst h1
  subst h2
  exact List.perm_middle

/-- The key of a complete entry, in tree-string form. -/
theorem Entry.key_of_complete (e : Entry) (p x : List Char) (t : EType) (ph : EPhase)
    (hep : e.project = some p) (hex : e.experiment = some x) (het : e.type = some t)
    (heph : e.phase = some ph) : e.key = (p, x, t.value, ph.value) := by
  simp [Entry.key, hep, hex, het, heph]

/-- Appending a freshly-named element preserves name uniqueness. -/
theorem nodup_map_append_singleton {α β : Type} (key : α → β) (l : List α) (a : α)
    (hnd : (l.map key).Nodup) (hna : ∀ b ∈ l, ¬ (key b = key a)) :
    ((l ++ [a]).map key).Nodup := by
  rw [List.map_append]
  refine List.Nodup.append hnd (by simp) ?_
  intro v hv1 hv2
  obtain ⟨b, hb, rfl⟩ := List.mem_map.1 hv1
  have : key b = key a := by simpa using hv2
  exact hna b hb this

/-- A property holding on a list and on a new element holds on their append. -/
theorem forall_mem_append_singleton {α : Type} {P : α → Prop} {l : List α} {a : α}
    (hl : ∀ b ∈ l, P b) (ha : P a) : ∀ b ∈ l ++ [a], P b := by
  intro b hb
  rcases List.mem_append.1 hb with h | h
  · exact hl b h
  · have : b = a := by simpa using h
    subst this
    exact ha

/-- Replacing the middle element preserves a pointwise property if the new
element satisfies it. -/
theorem forall_mem_middle {α : Type} {P : α → Prop} {l1 l2 : List α} {a a' : α}
    (h : ∀ b ∈ l1 ++ a :: l2, P b) (ha : P a') : ∀ b ∈ l1 ++ a' :: l2, P b := by
  intro b hb
  rcases List.mem_append.1 hb with h1 | h1
  · exact h b (List.mem_append_left _ h1)
  · rcases List.mem_cons.1 h1 with rfl | h2
    · exact ha
    · exact h b (List.mem_append_right _ (List.mem_cons_of_mem _ h2))

/-- Dropping the middle element preserves a pointwise property. -/
theorem forall_mem_middle_drop {α : Type} {P : α → Prop} {l1 l2 : List α} {a : α}
    (h : ∀ b ∈ l1 ++ a :: l2, P b) : ∀ b ∈ l1 ++ l2, P b := by
  intro b hb
  rcases List.mem_append.1 hb with h1 | h1
  · exact h b (List.mem_append_left _ h1)
  · exact h b (List.mem_append_right _ (List.mem_cons_of_mem _ h1))

/-- Replacing the middle element by one with the same key keeps the name map. -/
theorem map_middle_same_key {α β : Type} (key : α → β) (l1 l2 : List α) (a a' : α)
    (hk : key a' = key a) :
    (l1 ++ a' :: l2).map key = (l1 ++ a :: l2).map key := by
  simp [hk]

/-- One successful `add_data` iteration: on a well-formed tree, a complete
entry whose path is absent goes through, preserves well-formedness, and adds
exactly its own key. -/
theorem addOne_ok_of_not_mem (d : Data) (e : Entry) (p x : List Char) (t : EType) (ph : EPhase)
    (hep : e.project = some p) (hex : e.experiment = some x) (het : e.type = some t)
    (heph : e.phase = some ph) (hw : wfData d) (hnk : (p, x, t.value, ph.value) ∉ keyList d) :
    ∃ d1, addOne d e = .ok d1 ∧ wfData d1 ∧
      List.Perm (keyList d1) ((p, x, t.value, ph.value) :: keyList d) := by
  obtain ⟨⟨hndP, hinP⟩, hne⟩ := hw
  unfold addOne
  rw [hep, hex, het, heph]
  dsimp only
  cases hP : d.getProject p with
  | none =>
    refine ⟨_, rfl, ?_, ?_⟩
    · have hPnone : ∀ pr ∈ d, ¬ (pr.project = p) := by
        intro pr hpr
        have := List.find?_eq_none.1 hP pr hpr
        simpa using this
      refine ⟨⟨?_, ?_⟩, ?_⟩
      · exact nodup_map_append_singleton Project.project d _ hndP
          (fun b hb => by simpa using hPnone b hb)
      · refine forall_mem_append_singleton hinP ?_
        refine ⟨by simp, ?_⟩
        intro ex hex'
        have : ex = Experiment.mk x [⟨t.value, [⟨ph.value, e.identifier, e.files⟩]⟩] := by
          simpa using hex'
        subst this
        refine ⟨by simp, ?_⟩
        intro ty hty'
        have : ty = TypeNode.mk t.value [⟨ph.value, e.identifier, e.files⟩] := by
          simpa using hty'
        subst this
        simp
      · refine forall_mem_append_singleton hne ?_
        refine ⟨by simp, ?_⟩
        intro ex hex'
        have : ex = Experiment.mk x [⟨t.value, [⟨ph.value, e.identifier, e.files⟩]⟩] := by
          simpa using hex'
        subst this
        refine ⟨by simp, ?_⟩
        intro ty hty'
        have : ty = TypeNode.mk t.value [⟨ph.value, e.identifier, e.files⟩] := by
          simpa using hty'
        subst this
        simp
    · refine perm_of_eq_append_insert (X := keyList d) (Y := []) ?_ ?_
      · rw [keyList_append]
        simp [keyList, exKeys, tyKeys, phKeys]
      · simp
  | some proj =>
    dsimp only
    have hP' : d.find? (fun pr => decide (pr.project = p)) = some proj := hP
    obtain ⟨l1, l2, rfl, hl1, hpa⟩ := find?_eq_some_decomp _ d proj hP'
    have hprojp : proj.project = p := of_decide_eq_true hpa
    have hup : ∀ f : Project → Project,
        updateFirst (fun pr => decide (pr.project = p)) f (l1 ++ proj :: l2) =
          l1 ++ f proj :: l2 := fun f => updateFirst_append _ f l1 l2 proj hl1 hpa
    have hinProj := hinP proj (by simp)
    have hneProj := hne proj (by simp)
    cases hX : proj.getExperiment x with
    | none =>
      refine ⟨_, rfl, ?_, ?_⟩
      · rw [hup]
        have hXnone : ∀ ex ∈ proj.experiments, ¬ (ex.experiment = x) := by
          intro ex hex'
          have := List.find?_eq_none.1 hX ex hex'
          simpa using this
        refine ⟨⟨?_, ?_⟩, ?_⟩
        · rw [map_middle_same_key Project.project l1 l2 proj _ (by simp)]
          exact hndP
        · refine forall_mem_middle hinP ?_
          dsimp only
          refine ⟨?_, ?_⟩
          · exact nodup_map_append_singleton Experiment.experiment proj.experiments _
              hinProj.1 (fun b hb => by simpa using hXnone b hb)
          · refine forall_mem_append_singleton hinProj.2 ?_
            refine ⟨by simp, ?_⟩
            intro ty hty'
            have : ty = TypeNode.mk t.value [⟨ph.value, e.identifier, e.files⟩] := by
              simpa using hty'
            subst this
            simp
        · refine forall_mem_middle hne ?_
          dsimp only
          refine ⟨by simp, ?_⟩
          refine forall_mem_append_singleton hneProj.2 ?_
          refine ⟨by simp, ?_⟩
          intro ty hty'
          have : ty = TypeNode.mk t.value [⟨ph.value, e.identifier, e.files⟩] := by
            simpa using hty'
          subst this
          simp
      · rw [hup]
        refine perm_of_eq_append_insert
          (X := keyList l1 ++ exKeys p proj.experiments) (Y := keyList l2) ?_ ?_
        · rw [keyList_append, keyList_cons]
          dsimp only
          rw [hprojp, exKeys_append]
          simp [exKeys, tyKeys, phKeys, List.append_assoc]
        · rw [keyList_append, keyList_cons, hprojp]
          simp [List.append_assoc]
    | some exp =>
      dsimp only
      have hX' : proj.experiments.find? (fun ex => decide (ex.experiment = x)) = some exp := hX
      obtain ⟨m1, m2, hexps, hm1, hxa⟩ := find?_eq_some_decomp _ proj.experiments exp hX'
      have hexpx : exp.experiment = x := of_decide_eq_true hxa
      have hupX : ∀ f : Experiment → Experiment,
          updateFirst (fun ex => decide (ex.experiment = x)) f proj.experiments =
            m1 ++ f exp :: m2 := fun f => by
        rw [hexps]
        exact updateFirst_append _ f m1 m2 exp hm1 hxa
      have hinExp : (exp.types.map TypeNode.type).Nodup ∧
          ∀ ty ∈ exp.types, (ty.phases.map Phase.phase).Nodup := by
        refine hinProj.2 exp ?_
        rw [hexps]
        simp
      have hneExp : exp.types ≠ [] ∧ ∀ ty ∈ exp.types, ty.phases ≠ [] := by
        refine hneProj.2 exp ?_
        rw [hexps]
        simp
      cases hT : exp.getType t.value with
      | none =>
        refine ⟨_, rfl, ?_, ?_⟩
        · rw [hup, hupX]
          have hTnone : ∀ ty ∈ exp.types, ¬ (ty.type = t.value) := by
            intro ty hty'
            have := List.find?_eq_none.1 hT ty hty'
            simpa using this
          refine ⟨⟨?_, ?_⟩, ?_⟩
          · rw [map_middle_same_key Project.project l1 l2 proj _ (by simp)]
            exact hndP
          · refine forall_mem_middle hinP ?_
            dsimp only
            refine ⟨?_, ?_⟩
            · rw [map_middle_same_key Experiment.experiment m1 m2 exp _ (by simp)]
              rw [← hexps]
              exact hinProj.1
            · refine forall_mem_middle (by rw [← hexps]; exact hinProj.2) ?_
              dsimp only
              refine ⟨?_, ?_⟩
              · exact nodup_map_append_singleton TypeNode.type exp.types _ hinExp.1
                  (fun b hb => by simpa using hTnone b hb)
              · refine forall_mem_append_singleton hinExp.2 ?_
                simp
          · refine forall_mem_middle hne ?_
            dsimp only
            refine ⟨by simp, ?_⟩
            refine forall_mem_middle (by rw [← hexps]; exact hneProj.2) ?_
            dsimp only
            refine ⟨by simp, ?_⟩
            refine forall_mem_append_singleton hneExp.2 ?_
            simp
        · rw [hup, hupX]
          refine perm_of_eq_append_insert
            (X := keyList l1 ++ (exKeys p m1 ++ tyKeys p x exp.types))
            (Y := exKeys p m2 ++ keyList l2) ?_ ?_
          · rw [keyList_append, keyList_cons]
            dsimp only
            rw [hprojp, exKeys_append, exKeys_cons]
            dsimp only
            rw [hexpx, tyKeys_append]
            simp [tyKeys, phKeys, List.append_assoc]
          · rw [keyList_append, keyList_cons, hprojp, hexps, exKeys_append, exKeys_cons, hexpx]
            simp [List.append_assoc]
      | some ty =>
        dsimp only
        have hT' : exp.types.find? (fun tn => decide (tn.type = t.value)) = some ty := hT
        obtain ⟨n1, n2, htys, hn1, hta⟩ := find?_eq_some_decomp _ exp.types ty hT'
        have htyt : ty.type = t.value := of_decide_eq_true hta
        have hupT : ∀ f : TypeNode → TypeNode,
            updateFirst (fun tn => decide (tn.type = t.value)) f exp.types =
              n1 ++ f ty :: n2 := fun f => by
          rw [htys]
          exact updateFirst_append _ f n1 n2 ty hn1 hta
        have hinTy : (ty.phases.map Phase.phase).Nodup := by
          refine hinExp.2 ty ?_
          rw [htys]
          simp
        have hneTy : ty.phases ≠ [] := by
          refine hneExp.2 ty ?_
          rw [htys]
          simp
        cases hPh : ty.getPhase ph.value with
        | none =>
          refine ⟨_, rfl, ?_, ?_⟩
          · rw [hup, hupX, hupT]
            have hPhnone : ∀ q ∈ ty.phases, ¬ (q.phase = ph.value) := by
              intro q hq
              have := List.find?_eq_none.1 hPh q hq
              simpa using this
            refine ⟨⟨?_, ?_⟩, ?_⟩
            · rw [map_middle_same_key Project.project l1 l2 proj _ (by simp)]
              exact hndP
            · refine forall_mem_middle hinP ?_
              dsimp only
              refine ⟨?_, ?_⟩
              · rw [map_middle_same_key Experiment.experiment m1 m2 exp _ (by simp)]
                rw [← hexps]
                exact hinProj.1
              · refine forall_mem_middle (by rw [← hexps]; exact hinProj.2) ?_
                dsimp only
                refine ⟨?_, ?_⟩
                · rw [map_middle_same_key TypeNode.type n1 n2 ty _ (by simp)]
                  rw [← htys]
                  exact hinExp.1
                · refine forall_mem_middle (by rw [← htys]; exact hinExp.2) ?_
                  dsimp only
                  exact nodup_map_append_singleton Phase.phase ty.phases _ hinTy
                    (fun b hb => by simpa using hPhnone b hb)
            · refine forall_mem_middle hne ?_
              dsimp only
              refine ⟨by simp, ?_⟩
              refine forall_mem_middle (by rw [← hexps]; exact hneProj.2) ?_
              dsimp only
              refine ⟨by simp, ?_⟩
              refine forall_mem_middle (by rw [← htys]; exact hneExp.2) ?_
              simp
          · rw [hup, hupX, hupT]
            refine perm_of_eq_append_insert
              (X := keyList l1 ++ (exKeys p m1 ++ (tyKeys p x n1 ++
                phKeys p x t.value ty.phases)))
              (Y := tyKeys p x n2 ++ (exKeys p m2 ++ keyList l2)) ?_ ?_
            · rw [keyList_append, keyList_cons]
              dsimp only
              rw [hprojp, exKeys_append, exKeys_cons]
              dsimp only
              rw [hexpx, tyKeys_append, tyKeys_cons]
              dsimp only
              rw [htyt, phKeys_append]
              simp [phKeys, List.append_assoc]
            · rw [keyList_append, keyList_cons, hprojp, hexps, exKeys_append, exKeys_cons,
                hexpx, htys, tyKeys_append, tyKeys_cons, htyt]
              simp [List.append_assoc]
        | some phn =>
          exfalso
          have hmem : (p, x, t.value, ph.value) ∈ keyList (l1 ++ proj :: l2) := by
            have hphm : phn ∈ ty.phases := List.mem_of_find?_eq_some hPh
            have hphname : phn.phase = ph.value := by simpa using List.find?_some hPh
            have htym : ty ∈ exp.types := by rw [htys]; simp
            have hexm : exp ∈ proj.experiments := by rw [hexps]; simp
            have hprm : proj ∈ l1 ++ proj :: l2 := by simp
            have := mem_keyList_intro hprm hexm htym hphm
            rwa [hprojp, hexpx, htyt, hphname] at this
          exact hnk hmem

/-- Dropping the middle element preserves name uniqueness. -/
theorem nodup_map_middle_drop {α β : Type} (key : α → β) (l1 l2 : List α) (a : α)
    (h : ((l1 ++ a :: l2).map key).Nodup) : ((l1 ++ l2).map key).Nodup := by
  refine List.Nodup.sublist (List.Sublist.map key ?_) h
  exact List.Sublist.append_left (List.sublist_cons_self a l2) l1

/-- `phKeys` on a cons. -/
theorem phKeys_cons (p x ts : List Char) (q : Phase) (l : List Phase) :
    phKeys p x ts (q :: l) = (p, x, ts, q.phase) :: phKeys p x ts l := by
  simp [phKeys]

/-- One successful `remove_data` iteration: on a well-formed tree, removing a
present complete entry goes through, preserves well-formedness, removes exactly
its own key, and prunes emptied ancestors. -/
theorem removeOne_ok_of_mem (d : Data) (e : Entry) (p x : List Char) (t : EType) (ph : EPhase)
    (hep : e.project = some p) (hex : e.experiment = some x) (het : e.type = some t)
    (heph : e.phase = some ph) (hw : wfData d)
    (hk : (p, x, t.value, ph.value) ∈ keyList d) :
    ∃ d1, removeOne d e = .ok d1 ∧ wfData d1 ∧
      List.Perm (keyList d) ((p, x, t.value, ph.value) :: keyList d1) := by
  obtain ⟨⟨hndP, hinP⟩, hne⟩ := hw
  obtain ⟨pr, hpr, h1, ex, hexm, h2, ty, htym, h3, phn, hphm, h4⟩ := mem_keyList hk
  have hp1 : p = pr.project := h1
  have hx1 : x = ex.experiment := h2
  have ht1 : t.value = ty.type := h3
  have hs1 : ph.value = phn.phase := h4
  have hfP : d.getProject p = some pr :=
    find?_name_unique Project.project d hndP pr hpr p hp1.symm
  obtain ⟨hndX, hinX⟩ := hinP pr hpr
  have hfX : pr.getExperiment x = some ex :=
    find?_name_unique Experiment.experiment pr.experiments hndX ex hexm x hx1.symm
  obtain ⟨hndT, hinT⟩ := hinX ex hexm
  have hfT : ex.getType t.value = some ty :=
    find?_name_unique TypeNode.type ex.types hndT ty htym (t.value) ht1.symm
  have hndPh := hinT ty htym
  have hfPh : ty.getPhase ph.value = some phn :=
    find?_name_unique Phase.phase ty.phases hndPh phn hphm (ph.value) hs1.symm
  have hnePr := hne pr hpr
  have hneEx := hnePr.2 ex hexm
  have hneTy := hneEx.2 ty htym
  -- the nested lookup succeeds, so remove_data takes the cascade branch
  have hfind : findPhaseNode d (p, x, t.value, ph.value) = some phn := by
    unfold findPhaseNode
    dsimp only
    rw [hfP]
    dsimp only
    rw [hfX]
    dsimp only
    rw [hfT]
    dsimp only
    exact hfPh
  have hkey : e.key = (p, x, t.value, ph.value) :=
    Entry.key_of_complete e p x t ph hep hex het heph
  have hrem : removeOne d e = .ok (cascadeRemove d (p, x, t.value, ph.value)) := by
    unfold removeOne
    rw [hep, hex, het, heph]
    dsimp only
    rw [hkey, hfind]
  -- decompose every level at the located nodes
  obtain ⟨l1, l2, hd, hl1, hpa⟩ := find?_eq_some_decomp _ d pr hfP
  obtain ⟨m1, m2, hexps, hm1, hxa⟩ := find?_eq_some_decomp _ pr.experiments ex hfX
  obtain ⟨n1, n2, htys, hn1, hta⟩ := find?_eq_some_decomp _ ex.types ty hfT
  obtain ⟨q1, q2, hphs, hq1, hqa⟩ := find?_eq_some_decomp _ ty.phases phn hfPh
  -- the phase removal inside the found type node
  have hrf : removeFirst (fun q => decide (q.phase = ph.value)) ty.phases = q1 ++ q2 := by
    rw [hphs]
    exact removeFirst_append _ q1 q2 phn hq1 hqa
  have hg3 : ty.removePhaseNode ph.value =
      (if (q1 ++ q2).isEmpty then none else some { ty with phases := q1 ++ q2 }) := by
    unfold TypeNode.removePhaseNode
    rw [hrf]
  have hkeysd : keyList d =
      (keyList l1 ++ (exKeys p m1 ++ (tyKeys p x n1 ++ phKeys p x t.value q1))) ++
        (p, x, t.value, ph.value) ::
        (phKeys p x t.value q2 ++ (tyKeys p x n2 ++ (exKeys p m2 ++ keyList l2))) := by
    rw [hd, keyList_append, keyList_cons, ← hp1, hexps, exKeys_append, exKeys_cons, ← hx1,
      htys, tyKeys_append, tyKeys_cons, ← ht1, hphs, phKeys_append, phKeys_cons, ← hs1]
    simp [List.append_assoc]
  cases hq : (q1 ++ q2).isEmpty with
  | false =>
    -- the type keeps other phases: replace the phase list, no pruning
    have hg3' : ty.removePhaseNode ph.value = some { ty with phases := q1 ++ q2 } := by
      rw [hg3, hq]
      rfl
    have htys' : dropOrReplace (fun tn => decide (tn.type = t.value))
        (fun tn => tn.removePhaseNode ph.value) ex.types =
        n1 ++ { ty with phases := q1 ++ q2 } :: n2 := by
      rw [htys, dropOrReplace_append _ _ n1 n2 ty hn1 hta, hg3']
    have hg2 : ex.removeTypePhase (t.value) (ph.value) =
        some { ex with types := n1 ++ { ty with phases := q1 ++ q2 } :: n2 } := by
      unfold Experiment.removeTypePhase
      rw [htys']
      dsimp only
      rw [if_neg (by simp)]
    have hexps' : dropOrReplace (fun e2 => decide (e2.experiment = x))
        (fun e2 => e2.removeTypePhase (t.value) (ph.value)) pr.experiments =
        m1 ++ { ex with types := n1 ++ { ty with phases := q1 ++ q2 } :: n2 } :: m2 := by
      rw [hexps, dropOrReplace_append _ _ m1 m2 ex hm1 hxa, hg2]
    have hg1 : pr.removeEntryPath x (t.value) (ph.value) =
        some { pr with experiments :=
          m1 ++ { ex with types := n1 ++ { ty with phases := q1 ++ q2 } :: n2 } :: m2 } := by
      unfold Project.removeEntryPath
      rw [hexps']
      dsimp only
      rw [if_neg (by simp)]
    have hcas : cascadeRemove d (p, x, t.value, ph.value) =
        l1 ++ { pr with experiments :=
          m1 ++ { ex with types := n1 ++ { ty with phases := q1 ++ q2 } :: n2 } :: m2 } :: l2 := by
      unfold cascadeRemove
      rw [hd]
      dsimp only
      rw [dropOrReplace_append _ _ l1 l2 pr hl1 hpa, hg1]
    refine ⟨_, hrem, ?_, ?_⟩
    · rw [hcas]
      refine ⟨⟨?_, ?_⟩, ?_⟩
      · rw [map_middle_same_key Project.project l1 l2 pr _ (by simp), ← hd]
        exact hndP
      · rw [hd] at hinP
        refine forall_mem_middle hinP ?_
        dsimp only
        refine ⟨?_, ?_⟩
        · rw [map_middle_same_key Experiment.experiment m1 m2 ex _ (by simp), ← hexps]
          exact hndX
        · rw [hexps] at hinX
          refine forall_mem_middle hinX ?_
          dsimp only
          refine ⟨?_, ?_⟩
          · rw [map_middle_same_key TypeNode.type n1 n2 ty _ (by simp), ← htys]
            exact hndT
          · rw [htys] at hinT
            refine forall_mem_middle hinT ?_
            dsimp only
            rw [hphs] at hndPh
            exact nodup_map_middle_drop Phase.phase q1 q2 phn hndPh
      · rw [hd] at hne
        refine forall_mem_middle hne ?_
        dsimp only
        refine ⟨by simp, ?_⟩
        rw [hexps] at hnePr
        refine forall_mem_middle hnePr.2 ?_
        dsimp only
        refine ⟨by simp, ?_⟩
        rw [htys] at hneEx
        refine forall_mem_middle hneEx.2 ?_
        dsimp only
        intro hnil
        rw [hnil] at hq
        simp at hq
    · rw [hcas, hkeysd]
      refine perm_of_eq_append_insert rfl ?_
      rw [keyList_append, keyList_cons, ← hp1, exKeys_append, exKeys_cons, ← hx1,
        tyKeys_append, tyKeys_cons, ← ht1, phKeys_append]
      simp [List.append_assoc]
  | true =>
    have hq1nil : q1 = [] := (List.append_eq_nil.1 (List.isEmpty_iff.1 hq)).1
    have hq2nil : q2 = [] := (List.append_eq_nil.1 (List.isEmpty_iff.1 hq)).2
    have hg3' : ty.removePhaseNode ph.value = none := by
      rw [hg3, hq]
      rfl
    have htys' : dropOrReplace (fun tn => decide (tn.type = t.value))
        (fun tn => tn.removePhaseNode ph.value) ex.types = n1 ++ n2 := by
      rw [htys, dropOrReplace_append _ _ n1 n2 ty hn1 hta, hg3']
    cases hn : (n1 ++ n2).isEmpty with
    | false =>
      -- the experiment keeps other types: the emptied type node is pruned
      have hg2 : ex.removeTypePhase (t.value) (ph.value) =
          some { ex with types := n1 ++ n2 } := by
        unfold Experiment.removeTypePhase
        rw [htys']
        dsimp only
        rw [hn]
        rfl
      have hexps' : dropOrReplace (fun e2 => decide (e2.experiment = x))
          (fun e2 => e2.removeTypePhase (t.value) (ph.value)) pr.experiments =
          m1 ++ { ex with types := n1 ++ n2 } :: m2 := by
        rw [hexps, dropOrReplace_append _ _ m1 m2 ex hm1 hxa, hg2]
      have hg1 : pr.removeEntryPath x (t.value) (ph.value) =
          some { pr with experiments := m1 ++ { ex with types := n1 ++ n2 } :: m2 } := by
        unfold Project.removeEntryPath
        rw [hexps']
        rw [if_neg (by simp)]
      have hcas : cascadeRemove d (p, x, t.value, ph.value) =
          l1 ++ { pr with experiments := m1 ++ { ex with types := n1 ++ n2 } :: m2 } :: l2 := by
        unfold cascadeRemove
        rw [hd]
        dsimp only
        rw [dropOrReplace_append _ _ l1 l2 pr hl1 hpa, hg1]
      refine ⟨_, hrem, ?_, ?_⟩
      · rw [hcas]
        refine ⟨⟨?_, ?_⟩, ?_⟩
        · rw [map_middle_same_key Project.project l1 l2 pr _ (by simp), ← hd]
          exact hndP
        · rw [hd] at hinP
          refine forall_mem_middle hinP ?_
          dsimp only
          refine ⟨?_, ?_⟩
          · rw [map_middle_same_key Experiment.experiment m1 m2 ex _ (by simp), ← hexps]
            exact hndX
          · rw [hexps] at hinX
            refine forall_mem_middle hinX ?_
            dsimp only
            refine ⟨?_, ?_⟩
            · rw [htys] at hndT
              exact nodup_map_middle_drop TypeNode.type n1 n2 ty hndT
            · rw [htys] at hinT
              exact forall_mem_middle_drop hinT
        · rw [hd] at hne
          refine forall_mem_middle hne ?_
          dsimp only
          refine ⟨by simp, ?_⟩
          rw [hexps] at hnePr
          refine forall_mem_middle hnePr.2 ?_
          dsimp only
          refine ⟨?_, ?_⟩
          · intro hnil
            rw [hnil] at hn
            simp at hn
          · rw [htys] at hneEx
            exact forall_mem_middle_drop hneEx.2
      · rw [hcas, hkeysd, hq1nil, hq2nil]
        refine perm_of_eq_append_insert rfl ?_
        rw [keyList_append, keyList_cons, ← hp1, exKeys_append, exKeys_cons, ← hx1,
          tyKeys_append]
        simp [phKeys, List.append_assoc]
    | true =>
      have hn1nil : n1 = [] := (List.append_eq_nil.1 (List.isEmpty_iff.1 hn)).1
      have hn2nil : n2 = [] := (List.append_eq_nil.1 (List.isEmpty_iff.1 hn)).2
      have hg2 : ex.removeTypePhase (t.value) (ph.value) = none := by
        unfold Experiment.removeTypePhase
        rw [htys']
        dsimp only
        rw [hn]
        rfl
      have hexps' : dropOrReplace (fun e2 => decide (e2.experiment = x))
          (fun e2 => e2.removeTypePhase (t.value) (ph.value)) pr.experiments = m1 ++ m2 := by
        rw [hexps, dropOrReplace_append _ _ m1 m2 ex hm1 hxa, hg2]
      cases hm : (m1 ++ m2).isEmpty with
      | false =>
        -- the project keeps other experiments: the emptied experiment is pruned
        have hg1 : pr.removeEntryPath x (t.value) (ph.value) =
            some { pr with experiments := m1 ++ m2 } := by
          unfold Project.removeEntryPath
          rw [hexps']
          dsimp only
          rw [hm]
          rfl
        have hcas : cascadeRemove d (p, x, t.value, ph.value) =
            l1 ++ { pr with experiments := m1 ++ m2 } :: l2 := by
          unfold cascadeRemove
          rw [hd]
          dsimp only
          rw [dropOrReplace_append _ _ l1 l2 pr hl1 hpa, hg1]
        refine ⟨_, hrem, ?_, ?_⟩
        · rw [hcas]
          refine ⟨⟨?_, ?_⟩, ?_⟩
          · rw [map_middle_same_key Project.project l1 l2 pr _ (by simp), ← hd]
            exact hndP
          · rw [hd] at hinP
            refine forall_mem_middle hinP ?_
            dsimp only
            refine ⟨?_, ?_⟩
            · rw [hexps] at hndX
              exact nodup_map_middle_drop Experiment.experiment m1 m2 ex hndX
            · rw [hexps] at hinX
              exact forall_mem_middle_drop hinX
          · rw [hd] at hne
            refine forall_mem_middle hne ?_
            dsimp only
            refine ⟨?_, ?_⟩
            · intro hnil
              rw [hnil] at hm
              simp at hm
            · rw [hexps] at hnePr
              exact forall_mem_middle_drop hnePr.2
        · rw [hcas, hkeysd, hq1nil, hq2nil, hn1nil, hn2nil]
          refine perm_of_eq_append_insert rfl ?_
          rw [keyList_append, keyList_cons, ← hp1, exKeys_append]
          simp [tyKeys, phKeys, List.append_assoc]
      | true =>
        have hm1nil : m1 = [] := (List.append_eq_nil.1 (List.isEmpty_iff.1 hm)).1
        have hm2nil : m2 = [] := (List.append_eq_nil.1 (List.isEmpty_iff.1 hm)).2
        have hg1 : pr.removeEntryPath x (t.value) (ph.value) = none := by
          unfold Project.removeEntryPath
          rw [hexps']
          dsimp only
          rw [hm]
          rfl
        have hcas : cascadeRemove d (p, x, t.value, ph.value) = l1 ++ l2 := by
          unfold cascadeRemove
          rw [hd]
          dsimp only
          rw [dropOrReplace_append _ _ l1 l2 pr hl1 hpa, hg1]
        refine ⟨_, hrem, ?_, ?_⟩
        · rw [hcas]
          refine ⟨⟨?_, ?_⟩, ?_⟩
          · rw [hd] at hndP
            exact nodup_map_middle_drop Project.project l1 l2 pr hndP
          · rw [hd] at hinP
            exact forall_mem_middle_drop hinP
          · rw [hd] at hne
            exact forall_mem_middle_drop hne
        · rw [hcas, hkeysd, hq1nil, hq2nil, hn1nil, hn2nil, hm1nil, hm2nil]
          refine perm_of_eq_append_insert rfl ?_
          rw [keyList_append]
          simp [exKeys, tyKeys, phKeys, List.append_assoc]

/-- A well-formed tree with no keys is the empty tree (every node is
transitively inhabited). -/
theorem eq_nil_of_keyList_nil (d : Data) (hw : wfData d) (h : keyList d = []) : d = [] := by
  cases d with
  | nil => rfl
  | cons pr rest =>
    exfalso
    obtain ⟨_, hne⟩ := hw
    have hnePr := hne pr (List.mem_cons_self _ _)
    cases hexp : pr.experiments with
    | nil => exact hnePr.1 hexp
    | cons ex exs =>
      have hneEx := hnePr.2 ex (by rw [hexp]; simp)
      cases hty : ex.types with
      | nil => exact hneEx.1 hty
      | cons ty tys =>
        have hneTy := hneEx.2 ty (by rw [hty]; simp)
        cases hph : ty.phases with
        | nil => exact hneTy hph
        | cons q qs =>
          have hm : (pr.project, ex.experiment, ty.type, q.phase) ∈ keyList (pr :: rest) :=
            mem_keyList_intro (List.mem_cons_self _ _) (by rw [hexp]; simp)
              (by rw [hty]; simp) (by rw [hph]; simp)
          rw [h] at hm
          simp at hm

/-- Unfolding equation for one iteration of the `remove_data` loop. -/
theorem removeData_cons_eq (d : Data) (e : Entry) (es : List Entry) :
    removeData d (e :: es) =
      match removeOne d e with
      | .ok d' =>
        match removeData d' es with
        | .ok dfin n => .ok dfin (n + 1)
        | r => r
      | .error .missing => .missing d e
      | .error .notComplete => .invalid d e := rfl

/-- Unfolding equation for one iteration of the `remove_data` loop when the
entry goes through. -/
theorem removeData_cons_ok (d : Data) (e : Entry) (es : List Entry) (d' : Data)
    (h : removeOne d e = .ok d') :
    removeData d (e :: es) =
      match removeData d' es with
      | .ok dfin n => .ok dfin (n + 1)
      | r => r := by
  rw [removeData_cons_eq, h]

/-- Unfolding equation for the missing-entry failure of the `remove_data` loop. -/
theorem removeData_cons_missing (d : Data) (e : Entry) (es : List Entry)
    (h : removeOne d e = .error .missing) :
    removeData d (e :: es) = .missing d e := by
  rw [removeData_cons_eq, h]

/-- Elimination form for a successful experiment lookup. -/
theorem findExperimentNode_some_elim (d : Data) (p x : List Char) (ex : Experiment)
    (h : findExperimentNode d p x = some ex) :
    ∃ pr ∈ d, pr.project = p ∧ ex ∈ pr.experiments ∧ ex.experiment = x := by
  unfold findExperimentNode at h
  cases hP : d.getProject p with
  | none => rw [hP] at h; exact absurd h (by simp)
  | some pr =>
    rw [hP] at h
    dsimp only at h
    refine ⟨pr, List.mem_of_find?_eq_some hP, by simpa using List.find?_some hP,
      List.mem_of_find?_eq_some h, by simpa using List.find?_some h⟩

/-- Elimination form for a successful type lookup. -/
theorem findTypeNode_some_elim (d : Data) (p x ts : List Char) (ty : TypeNode)
    (h : findTypeNode d p x ts = some ty) :
    ∃ pr ∈ d, pr.project = p ∧ ∃ ex ∈ pr.experiments, ex.experiment = x ∧
      ty ∈ ex.types ∧ ty.type = ts := by
  unfold findTypeNode at h
  cases hP : d.getProject p with
  | none => rw [hP] at h; exact absurd h (by simp)
  | some pr =>
    rw [hP] at h
    dsimp only at h
    cases hX : pr.getExperiment x with
    | none => rw [hX] at h; exact absurd h (by simp)
    | some ex =>
      rw [hX] at h
      dsimp only at h
      exact ⟨pr, List.mem_of_find?_eq_some hP, by simpa using List.find?_some hP,
        ex, List.mem_of_find?_eq_some hX, by simpa using List.find?_some hX,
        List.mem_of_find?_eq_some h, by simpa using List.find?_some h⟩

/-- The whole `add_data` loop on fresh, distinct, complete entries: it
succeeds, preserves well-formedness, and adds exactly the entries' keys. -/
theorem addData_all_ok (es : List Entry) : ∀ d : Data, wfData d →
    (∀ e ∈ es, e.complete) → (es.map Entry.key).Nodup →
    (∀ e ∈ es, e.key ∉ keyList d) →
    ∃ d', addData d es = .ok d' es.length ∧ wfData d' ∧
      List.Perm (keyList d') (es.map Entry.key ++ keyList d) := by
  induction es with
  | nil =>
    intro d hw _ _ _
    exact ⟨d, rfl, hw, by simp⟩
  | cons e es ih =>
    intro d hw hc hnd hnk
    obtain ⟨hp, hx, ht, hph⟩ := hc e (List.mem_cons_self _ _)
    obtain ⟨p, hep⟩ := Option.isSome_iff_exists.1 hp
    obtain ⟨x, hex⟩ := Option.isSome_iff_exists.1 hx
    obtain ⟨t, het⟩ := Option.isSome_iff_exists.1 ht
    obtain ⟨ph, heph⟩ := Option.isSome_iff_exists.1 hph
    have hkey : e.key = (p, x, t.value, ph.value) :=
      Entry.key_of_complete e p x t ph hep hex het heph
    have hnk0 : (p, x, t.value, ph.value) ∉ keyList d := by
      rw [← hkey]
      exact hnk e (List.mem_cons_self _ _)
    obtain ⟨d1, hok, hw1, hperm1⟩ :=
      addOne_ok_of_not_mem d e p x t ph hep hex het heph hw hnk0
    rw [List.map_cons] at hnd
    have hndc := List.nodup_cons.1 hnd
    have hnk1 : ∀ e' ∈ es, e'.key ∉ keyList d1 := by
      intro e' he' hmem
      have hmem2 : e'.key ∈ (p, x, t.value, ph.value) :: keyList d :=
        (List.Perm.mem_iff hperm1).1 hmem
      rcases List.mem_cons.1 hmem2 with heq | hmem3
      · rw [← hkey] at heq
        exact hndc.1 (heq ▸ List.mem_map_of_mem Entry.key he')
      · exact hnk e' (List.mem_cons_of_mem _ he') hmem3
    obtain ⟨d', hok', hw', hperm'⟩ :=
      ih d1 hw1 (fun e' h => hc e' (List.mem_cons_of_mem _ h)) hndc.2 hnk1
    refine ⟨d', ?_, hw', ?_⟩
    · rw [addData_cons_ok d e es d1 hok, hok']
      rfl
    · have hperm1e : List.Perm (keyList d1) (e.key :: keyList d) := by
        rw [hkey]
        exact hperm1
      have ha : List.Perm (es.map Entry.key ++ keyList d1)
          (es.map Entry.key ++ (e.key :: keyList d)) :=
        List.Perm.append_left (es.map Entry.key) hperm1e
      have hb : List.Perm (es.map Entry.key ++ (e.key :: keyList d))
          (e.key :: (es.map Entry.key ++ keyList d)) := List.perm_middle
      have := List.Perm.trans hperm' (List.Perm.trans ha hb)
      simpa using this

/-- The whole `remove_data` loop on complete distinct entries whose keys are
exactly the tree's keys: it removes everything and leaves the empty catalog. -/
theorem removeData_all_ok (es : List Entry) : ∀ d : Data, wfData d →
    (∀ e ∈ es, e.complete) → (es.map Entry.key).Nodup →
    List.Perm (keyList d) (es.map Entry.key) →
    removeData d es = .ok [] es.length := by
  induction es with
  | nil =>
    intro d hw _ _ hperm
    have hnil : keyList d = [] := List.Perm.eq_nil (by simpa using hperm)
    rw [eq_nil_of_keyList_nil d hw hnil]
    rfl
  | cons e es ih =>
    intro d hw hc hnd hperm
    obtain ⟨hp, hx, ht, hph⟩ := hc e (List.mem_cons_self _ _)
    obtain ⟨p, hep⟩ := Option.isSome_iff_exists.1 hp
    obtain ⟨x, hex⟩ := Option.isSome_iff_exists.1 hx
    obtain ⟨t, het⟩ := Option.isSome_iff_exists.1 ht
    obtain ⟨ph, heph⟩ := Option.isSome_iff_exists.1 hph
    have hkey : e.key = (p, x, t.value, ph.value) :=
      Entry.key_of_complete e p x t ph hep hex het heph
    have hmem : (p, x, t.value, ph.value) ∈ keyList d := by
      refine (List.Perm.mem_iff hperm).2 ?_
      rw [← hkey]
      simp
    obtain ⟨d1, hok, hw1, hperm1⟩ :=
      removeOne_ok_of_mem d e p x t ph hep hex het heph hw hmem
    rw [List.map_cons] at hnd
    have hndc := List.nodup_cons.1 hnd
    have hperm2 : List.Perm ((p, x, t.value, ph.value) :: keyList d1)
        ((p, x, t.value, ph.value) :: es.map Entry.key) := by
      refine List.Perm.trans hperm1.symm ?_
      rw [List.map_cons, hkey] at hperm
      exact hperm
    have hperm3 : List.Perm (keyList d1) (es.map Entry.key) := List.Perm.cons_inv hperm2
    have hrest := ih d1 hw1 (fun e' h => hc e' (List.mem_cons_of_mem _ h)) hndc.2 hperm3
    rw [removeData_cons_ok d e es d1 hok, hrest]
    rfl

/-- `remove_data` on a complete entry whose full path does not resolve raises
the missing-entry error. -/
theorem removeOne_missing (d : Data) (e : Entry) (p x : List Char) (t : EType) (ph : EPhase)
    (hep : e.project = some p) (hex : e.experiment = some x) (het : e.type = some t)
    (heph : e.phase = some ph) (hnone : findPhaseNode d e.key = none) :
    removeOne d e = .error .missing := by
  unfold removeOne
  rw [hep, hex, het, heph]
  dsimp only
  rw [hnone]

/-- Cascade-prune: when a successful removal takes out the last phase of a
type node, that type node is gone; transitively for the experiment and
project nodes once their last child is gone. -/
theorem removeOne_prunes (d : Data) (e : Entry) (d1 : Data) (p x : List Char)
    (t : EType) (ph : EPhase) (hw : wfData d)
    (hep : e.project = some p) (hex : e.experiment = some x) (het : e.type = some t)
    (heph : e.phase = some ph) (hok : removeOne d e = .ok d1) :
    (∀ ty, findTypeNode d p x t.value = some ty →
        ty.phases.map Phase.phase = [ph.value] → findTypeNode d1 p x t.value = none) ∧
    (∀ ex2, findExperimentNode d p x = some ex2 →
        ex2.types.map (fun ty => (ty.type, ty.phases.map Phase.phase)) =
          [(t.value, [ph.value])] → findExperimentNode d1 p x = none) ∧
    (∀ pr2, d.getProject p = some pr2 →
        pr2.experiments.map (fun ex => (ex.experiment,
          ex.types.map fun ty => (ty.type, ty.phases.map Phase.phase))) =
          [(x, [(t.value, [ph.value])])] → d1.getProject p = none) := by
  have hkey : e.key = (p, x, t.value, ph.value) :=
    Entry.key_of_complete e p x t ph hep hex het heph
  cases hfind : findPhaseNode d e.key with
  | none =>
    have hmiss : removeOne d e = .error .missing :=
      removeOne_missing d e p x t ph hep hex het heph hfind
    rw [hmiss] at hok
    exact absurd hok (by simp)
  | some phn =>
    rw [hkey] at hfind
    have hmem : (p, x, t.value, ph.value) ∈ keyList d :=
      (mem_of_findPhaseNode d p x t.value ph.value phn hfind).1
    obtain ⟨d1a, hoka, hw1, hperm⟩ :=
      removeOne_ok_of_mem d e p x t ph hep hex het heph hw hmem
    rw [hoka] at hok
    injection hok with hd1
    subst hd1
    have hnodupd : (keyList d).Nodup := keyList_nodup d hw.1
    have hnd1 : ((p, x, t.value, ph.value) :: keyList d1a).Nodup :=
      (List.Perm.nodup_iff hperm).1 hnodupd
    have hkeynot : (p, x, t.value, ph.value) ∉ keyList d1a := (List.nodup_cons.1 hnd1).1
    have hup : ∀ k2 ∈ keyList d1a, k2 ∈ keyList d := fun k2 h =>
      (List.Perm.mem_iff hperm).2 (List.mem_cons_of_mem _ h)
    refine ⟨?_, ?_, ?_⟩
    · intro ty hT hsing
      cases hT2 : findTypeNode d1a p x t.value with
      | none => rfl
      | some ty2 =>
        exfalso
        obtain ⟨pr2, hpr2, hpr2n, ex2, hex2, hex2n, hty2, hty2n⟩ :=
          findTypeNode_some_elim d1a p x t.value ty2 hT2
        have hneq : ty2.phases ≠ [] := ((hw1.2 pr2 hpr2).2 ex2 hex2).2 ty2 hty2
        obtain ⟨phn2, hphn2⟩ := List.exists_mem_of_ne_nil _ hneq
        have hk2 : (pr2.project, ex2.experiment, ty2.type, phn2.phase) ∈ keyList d1a :=
          mem_keyList_intro hpr2 hex2 hty2 hphn2
        rw [hpr2n, hex2n, hty2n] at hk2
        obtain ⟨prb, hprb, h1, exb, hexb, h2, tyb, htyb, h3, phnb, hphnb, h4⟩ :=
          mem_keyList (hup _ hk2)
        have h1b : p = prb.project := h1
        have h2b : x = exb.experiment := h2
        have h3b : t.value = tyb.type := h3
        have h4b : phn2.phase = phnb.phase := h4
        obtain ⟨prA, hprA, hprAn, exA, hexA, hexAn, htyA, htyAn⟩ :=
          findTypeNode_some_elim d p x t.value ty hT
        obtain ⟨hndP, hinP⟩ := hw.1
        have hprEq : prb = prA :=
          mem_name_unique Project.project d hndP prb prA hprb hprA (by rw [← h1b, hprAn])
        obtain ⟨hndX, hinX⟩ := hinP prb hprb
        have hexA2 : exA ∈ prb.experiments := by rw [hprEq]; exact hexA
        have hexEq : exb = exA :=
          mem_name_unique Experiment.experiment prb.experiments hndX exb exA hexb hexA2
            (by rw [← h2b, hexAn])
        obtain ⟨hndT, _⟩ := hinX exb hexb
        have htyA2 : ty ∈ exb.types := by rw [hexEq]; exact htyA
        have htyEq : tyb = ty :=
          mem_name_unique TypeNode.type exb.types hndT tyb ty htyb htyA2
            (by rw [← h3b, htyAn])
        have hpl : tyb.phases.map Phase.phase = [ph.value] := by rw [htyEq, hsing]
        have hpm : phnb.phase ∈ tyb.phases.map Phase.phase :=
          List.mem_map_of_mem Phase.phase hphnb
        rw [hpl] at hpm
        have hpv : phnb.phase = ph.value := by simpa using hpm
        refine hkeynot ?_
        rw [← hpv, ← h4b]
        exact hk2
    · intro ex2 hX2 hsing
      cases hE2 : findExperimentNode d1a p x with
      | none => rfl
      | some ex3 =>
        exfalso
        obtain ⟨pr2, hpr2, hpr2n, hex3, hex3n⟩ :=
          findExperimentNode_some_elim d1a p x ex3 hE2
        have hneqT : ex3.types ≠ [] := ((hw1.2 pr2 hpr2).2 ex3 hex3).1
        obtain ⟨ty2, hty2⟩ := List.exists_mem_of_ne_nil _ hneqT
        have hneqP : ty2.phases ≠ [] := ((hw1.2 pr2 hpr2).2 ex3 hex3).2 ty2 hty2
        obtain ⟨phn2, hphn2⟩ := List.exists_mem_of_ne_nil _ hneqP
        have hk2 : (pr2.project, ex3.experiment, ty2.type, phn2.phase) ∈ keyList d1a :=
          mem_keyList_intro hpr2 hex3 hty2 hphn2
        rw [hpr2n, hex3n] at hk2
        obtain ⟨prb, hprb, h1, exb, hexb, h2, tyb, htyb, h3, phnb, hphnb, h4⟩ :=
          mem_keyList (hup _ hk2)
        have h1b : p = prb.project := h1
        have h2b : x = exb.experiment := h2
        have h3b : ty2.type = tyb.type := h3
        have h4b : phn2.phase = phnb.phase := h4
        obtain ⟨prA, hprA, hprAn, hex2A, hex2An⟩ :=
          findExperimentNode_some_elim d p x ex2 hX2
        obtain ⟨hndP, hinP⟩ := hw.1
        have hprEq : prb = prA :=
          mem_name_unique Project.project d hndP prb prA hprb hprA (by rw [← h1b, hprAn])
        obtain ⟨hndX, _⟩ := hinP prb hprb
        have hex2A2 : ex2 ∈ prb.experiments := by rw [hprEq]; exact hex2A
        have hexEq : exb = ex2 :=
          mem_name_unique Experiment.experiment prb.experiments hndX exb ex2 hexb hex2A2
            (by rw [← h2b, hex2An])
        have htm : (tyb.type, tyb.phases.map Phase.phase) ∈
            ex2.types.map fun ty => (ty.type, ty.phases.map Phase.phase) := by
          rw [← hexEq]
          exact List.mem_map_of_mem _ htyb
        rw [hsing] at htm
        have hpairT : (tyb.type, tyb.phases.map Phase.phase) = (t.value, [ph.value]) := by
          simpa using htm
        have htv : tyb.type = t.value := congrArg Prod.fst hpairT
        have hpl : tyb.phases.map Phase.phase = [ph.value] := congrArg Prod.snd hpairT
        have hpm : phnb.phase ∈ tyb.phases.map Phase.phase :=
          List.mem_map_of_mem Phase.phase hphnb
        rw [hpl] at hpm
        have hpv : phnb.phase = ph.value := by simpa using hpm
        refine hkeynot ?_
        rw [← hpv, ← h4b, ← htv, ← h3b]
        exact hk2
    · intro pr2 hP2 hsing
      cases hP3 : d1a.getProject p with
      | none => rfl
      | some pr3 =>
        exfalso
        have hpr3 : pr3 ∈ d1a := List.mem_of_find?_eq_some hP3
        have hpr3n : pr3.project = p := by simpa using List.find?_some hP3
        have hneqE : pr3.experiments ≠ [] := (hw1.2 pr3 hpr3).1
        obtain ⟨ex3, hex3⟩ := List.exists_mem_of_ne_nil _ hneqE
        have hneqT : ex3.types ≠ [] := ((hw1.2 pr3 hpr3).2 ex3 hex3).1
        obtain ⟨ty2, hty2⟩ := List.exists_mem_of_ne_nil _ hneqT
        have hneqP : ty2.phases ≠ [] := ((hw1.2 pr3 hpr3).2 ex3 hex3).2 ty2 hty2
        obtain ⟨phn2, hphn2⟩ := List.exists_mem_of_ne_nil _ hneqP
        have hk2 : (pr3.project, ex3.experiment, ty2.type, phn2.phase) ∈ keyList d1a :=
          mem_keyList_intro hpr3 hex3 hty2 hphn2
        rw [hpr3n] at hk2
        obtain ⟨prb, hprb, h1, exb, hexb, h2, tyb, htyb, h3, phnb, hphnb, h4⟩ :=
          mem_keyList (hup _ hk2)
        have h1b : p = prb.project := h1
        have h2b : ex3.experiment = exb.experiment := h2
        have h3b : ty2.type = tyb.type := h3
        have h4b : phn2.phase = phnb.phase := h4
        have hpr2m : pr2 ∈ d := List.mem_of_find?_eq_some hP2
        have hpr2n : pr2.project = p := by simpa using List.find?_some hP2
        obtain ⟨hndP, _⟩ := hw.1
        have hprEq : prb = pr2 :=
          mem_name_unique Project.project d hndP prb pr2 hprb hpr2m (by rw [← h1b, hpr2n])
        have hxm : (exb.experiment, exb.types.map fun ty =>
            (ty.type, ty.phases.map Phase.phase)) ∈
            pr2.experiments.map (fun ex => (ex.experiment,
              ex.types.map fun ty => (ty.type, ty.phases.map Phase.phase))) := by
          rw [← hprEq]
          exact List.mem_map_of_mem _ hexb
        rw [hsing] at hxm
        have hpairX : (exb.experiment, exb.types.map fun ty =>
            (ty.type, ty.phases.map Phase.phase)) = (x, [(t.value, [ph.value])]) := by
          simpa using hxm
        have hxv : exb.experiment = x := congrArg Prod.fst hpairX
        have htl : (exb.types.map fun ty => (ty.type, ty.phases.map Phase.phase)) =
            [(t.value, [ph.value])] := congrArg Prod.snd hpairX
        have htm : (tyb.type, tyb.phases.map Phase.phase) ∈
            exb.types.map fun ty => (ty.type, ty.phases.map Phase.phase) :=
          List.mem_map_of_mem _ htyb
        rw [htl] at htm
        have hpairT : (tyb.type, tyb.phases.map Phase.phase) = (t.value, [ph.value]) := by
          simpa using htm
        have htv : tyb.type = t.value := congrArg Prod.fst hpairT
        have hpl : tyb.phases.map Phase.phase = [ph.value] := congrArg Prod.snd hpairT
        have hpm : phnb.phase ∈ tyb.phases.map Phase.phase :=
          List.mem_map_of_mem Phase.phase hphnb
        rw [hpl] at hpm
        have hpv : phnb.phase = ph.value := by simpa using hpm
        refine hkeynot ?_
        rw [← hpv, ← h4b, ← htv, ← h3b, ← hxv, ← h2b]
        exact hk2

/-! ### `find_data` versus the spec-side `findEntries` (claim C2) -/

/-- `EType(s)` parses to a member exactly when `s` is its string value. -/
theorem etype_parse_eq_some (s : List Char) (t : EType) :
    EType.parse s = some t ↔ s = t.value := by
  constructor
  · intro h
    unfold EType.parse at h
    split_ifs at h <;> simp_all [EType.value] <;> subst_vars <;> rfl
  · intro h
    subst h
    cases t <;> decide

/-- `EPhase(s)` parses to a member exactly when `s` is its string value. -/
theorem ephase_parse_eq_some (s : List Char) (ph : EPhase) :
    EPhase.parse s = some ph ↔ s = ph.value := by
  constructor
  · intro h
    unfold EPhase.parse at h
    split_ifs at h <;> simp_all [EPhase.value]
  · intro h
    subst h
    cases ph <;> decide

/-- `iter_data` is the per-project flattening. -/
theorem iterData_eq (d : Data) : iterData d = d.flatMap entriesOfProject := by
  unfold iterData entriesOfProject entriesOfExperiment entriesOfType entryOfPhase
  rfl

/-- Every entry below a project node carries that project name. -/
theorem project_of_mem_entriesOfProject {pr : Project} {ce : Entry}
    (h : ce ∈ entriesOfProject pr) : ce.project = some pr.project := by
  simp only [entriesOfProject, entriesOfExperiment, entriesOfType, entryOfPhase,
    List.mem_flatMap, List.mem_map] at h
  obtain ⟨_, _, _, _, _, _, rfl⟩ := h
  rfl

/-- Every entry below an experiment node carries its project and experiment names. -/
theorem fields_of_mem_entriesOfExperiment {p : List Char} {ex : Experiment} {ce : Entry}
    (h : ce ∈ entriesOfExperiment p ex) :
    ce.project = some p ∧ ce.experiment = some ex.experiment := by
  simp only [entriesOfExperiment, entriesOfType, entryOfPhase,
    List.mem_flatMap, List.mem_map] at h
  obtain ⟨_, _, _, _, rfl⟩ := h
  exact ⟨rfl, rfl⟩

/-- Every entry below a type node carries its path fields. -/
theorem fields_of_mem_entriesOfType {p x : List Char} {ty : TypeNode} {ce : Entry}
    (h : ce ∈ entriesOfType p x ty) :
    ce.project = some p ∧ ce.experiment = some x ∧ ce.type = ty.enum := by
  simp only [entriesOfType, entryOfPhase, List.mem_map] at h
  obtain ⟨_, _, rfl⟩ := h
  exact ⟨rfl, rfl, rfl⟩

/-- Filtering distributes over the flattening. -/
theorem flatMap_filter {α : Type} (l : List α) (f : α → List Entry) (pred : Entry → Bool) :
    (l.flatMap f).filter pred = l.flatMap fun a => (f a).filter pred := by
  induction l with
  | nil => rfl
  | cons a l ih => simp [List.flatMap_cons, List.filter_append, ih]

/-- When no node has the looked-up name and off-name nodes contribute nothing,
the filtered flattening is empty. -/
theorem flatMap_filter_of_find?_none {α : Type} {key : α → List Char} {f : α → List Entry}
    {pred : Entry → Bool} {l : List α} {v : List Char}
    (hpass : ∀ a ∈ l, ¬key a = v → (f a).filter pred = [])
    (h : l.find? (fun b => decide (key b = v)) = none) :
    (l.flatMap fun a => (f a).filter pred) = [] := by
  rw [List.flatMap_eq_nil_iff]
  intro a ha
  exact hpass a ha (by simpa using List.find?_eq_none.1 h a ha)

/-- With unique names, the filtered flattening collapses to the node that the
first-match lookup returns. -/
theorem flatMap_filter_of_find?_some {α : Type} {key : α → List Char} {f : α → List Entry}
    {pred : Entry → Bool} {l : List α} {v : List Char} {a : α}
    (hnd : (l.map key).Nodup)
    (hpass : ∀ b ∈ l, ¬key b = v → (f b).filter pred = [])
    (h : l.find? (fun b => decide (key b = v)) = some a) :
    (l.flatMap fun b => (f b).filter pred) = (f a).filter pred := by
  obtain ⟨l1, l2, heq, hl1, ha⟩ := find?_eq_some_decomp _ l a h
  have hav : key a = v := by simpa using ha
  subst heq
  rw [List.flatMap_append, List.flatMap_cons]
  have h1 : (l1.flatMap fun b => (f b).filter pred) = [] := by
    rw [List.flatMap_eq_nil_iff]
    intro b hb
    exact hpass b (List.mem_append_left _ hb) (by simpa using hl1 b hb)
  have h2 : (l2.flatMap fun b => (f b).filter pred) = [] := by
    rw [List.flatMap_eq_nil_iff]
    intro b hb
    refine hpass b (by simp [hb]) ?_
    intro hbv
    rw [List.map_append, List.map_cons] at hnd
    have hnotin := (List.nodup_cons.1 (List.Nodup.of_append_right hnd)).1
    refine hnotin ?_
    rw [hav, ← hbv]
    exact List.mem_map_of_mem key hb
  rw [h1, h2, List.append_nil, List.nil_append]

/-- With unique names, filtering by the looked-up name keeps exactly the node
that the first-match lookup returns. -/
theorem filter_key_of_find?_some {α : Type} {key : α → List Char} {l : List α}
    {v : List Char} {a : α} (hnd : (l.map key).Nodup)
    (h : l.find? (fun b => decide (key b = v)) = some a) :
    l.filter (fun b => decide (key b = v)) = [a] := by
  obtain ⟨l1, l2, heq, hl1, ha⟩ := find?_eq_some_decomp _ l a h
  have hav : key a = v := by simpa using ha
  subst heq
  have hab : decide (key a = v) = true := by simpa using ha
  have h1 : l1.filter (fun b => decide (key b = v)) = [] := by
    rw [List.filter_eq_nil_iff]
    intro b hb
    simpa using hl1 b hb
  have h2 : l2.filter (fun b => decide (key b = v)) = [] := by
    rw [List.filter_eq_nil_iff]
    intro b hb
    rw [List.map_append, List.map_cons] at hnd
    have hnotin := (List.nodup_cons.1 (List.Nodup.of_append_right hnd)).1
    intro hbv
    refine hnotin ?_
    rw [hav]
    have hbv2 : key b = v := by simpa using hbv
    rw [← hbv2]
    exact List.mem_map_of_mem key hb
  simp [List.filter_append, List.filter_cons, hab, h1, h2]

/-- A truthy optional string is the `some` of its `getD`. -/
theorem pyTruthy_eq_some {o : Option (List Char)} (h : pyTruthy o = true) :
    o = some (o.getD []) := by
  cases o with
  | none => simp [pyTruthy] at h
  | some s => rfl

/-- Collecting per-query batches into the ordered set is folding the
concatenation of the batches. -/
theorem foldl_ordExtend_flatMap (g : Entry → List Entry) (qs : List Entry) :
    ∀ acc : List Entry,
      qs.foldl (fun a q => ordExtend a (g q)) acc = (qs.flatMap g).foldl ordAdd acc := by
  induction qs with
  | nil => intro acc; rfl
  | cons q qs ih =>
    intro acc
    rw [List.foldl_cons, ih, List.flatMap_cons, List.foldl_append]
    rfl

/-- One iteration of the `find_data` loop matches the spec-side resolution by
specificity, on a catalog with unique names at every level. -/
theorem findOne_eq_findOneSpec (d : Data) (q : Entry) (hn : namesUnique d) :
    findOne d q = findOneSpec d q := by
  unfold findOne findOneSpec
  by_cases hid : pyTruthy q.identifier
  · rw [if_pos hid, if_pos hid]
  · rw [if_neg hid, if_neg hid]
    by_cases hpj : pyTruthy q.project
    · rw [if_pos hpj, if_pos hpj]
      have hqp : q.project = some (q.project.getD []) := pyTruthy_eq_some hpj
      rw [iterData_eq, flatMap_filter]
      have hpassP : ∀ pr ∈ d, ¬pr.project = q.project.getD [] →
          (entriesOfProject pr).filter (prefixMatch q) = [] := by
        intro pr _ hne
        rw [List.filter_eq_nil_iff]
        intro ce hce
        have hcp := project_of_mem_entriesOfProject hce
        have hnep : ¬ce.project = q.project := by
          rw [hcp, hqp]
          simp [hne]
        simp [prefixMatch, hnep]
      cases hP : Data.getProject d (q.project.getD []) with
      | none =>
        unfold Data.getProject at hP
        exact (flatMap_filter_of_find?_none hpassP hP).symm
      | some proj =>
        unfold Data.getProject at hP
        have hprm : proj ∈ d := List.mem_of_find?_eq_some hP
        have hprn : proj.project = q.project.getD [] := by simpa using List.find?_some hP
        have hqp2 : q.project = some proj.project := by rw [hqp, hprn]
        rw [flatMap_filter_of_find?_some hn.1 hpassP hP]
        dsimp only
        by_cases hex : pyTruthy q.experiment
        · rw [if_pos hex]
          have hqx : q.experiment = some (q.experiment.getD []) := pyTruthy_eq_some hex
          have hEP : entriesOfProject proj =
              proj.experiments.flatMap (entriesOfExperiment proj.project) := rfl
          rw [hEP, flatMap_filter]
          have hpassX : ∀ ex ∈ proj.experiments, ¬ex.experiment = q.experiment.getD [] →
              (entriesOfExperiment proj.project ex).filter (prefixMatch q) = [] := by
            intro ex _ hne
            rw [List.filter_eq_nil_iff]
            intro ce hce
            obtain ⟨hcp, hcx⟩ := fields_of_mem_entriesOfExperiment hce
            have hnex : ¬ce.experiment = q.experiment := by
              rw [hcx, hqx]
              simp [hne]
            simp [prefixMatch, hex, hnex]
          obtain ⟨hndX, hinX⟩ := hn.2 proj hprm
          cases hX : Project.getExperiment proj (q.experiment.getD []) with
          | none =>
            unfold Project.getExperiment at hX
            exact (flatMap_filter_of_find?_none hpassX hX).symm
          | some ex =>
            unfold Project.getExperiment at hX
            have hexm : ex ∈ proj.experiments := List.mem_of_find?_eq_some hX
            have hexn : ex.experiment = q.experiment.getD [] := by
              simpa using List.find?_some hX
            have hqx2 : q.experiment = some ex.experiment := by rw [hqx, hexn]
            rw [flatMap_filter_of_find?_some hndX hpassX hX]
            dsimp only
            obtain ⟨hndT, hinT⟩ := hinX ex hexm
            cases hqt : q.type with
            | none =>
              dsimp only
              have hself : (entriesOfExperiment proj.project ex).filter (prefixMatch q) =
                  entriesOfExperiment proj.project ex := by
                rw [List.filter_eq_self]
                intro ce hce
                obtain ⟨hcp, hcx⟩ := fields_of_mem_entriesOfExperiment hce
                simp [prefixMatch, hcp, hcx, hqp2, hqx2, hqt]
              rw [hself]
              simp only [hqp2, hqx2]
              rfl
            | some t =>
              dsimp only
              have hET : entriesOfExperiment proj.project ex =
                  ex.types.flatMap (entriesOfType proj.project ex.experiment) := rfl
              rw [hET, flatMap_filter]
              have hpassT : ∀ ty ∈ ex.types, ¬ty.type = t.value →
                  (entriesOfType proj.project ex.experiment ty).filter (prefixMatch q) = [] := by
                intro ty _ hne
                rw [List.filter_eq_nil_iff]
                intro ce hce
                obtain ⟨hcp, hcx, hct⟩ := fields_of_mem_entriesOfType hce
                have hty_ne : ¬ty.enum = some t := fun hcontra =>
                  hne ((etype_parse_eq_some _ _).1 hcontra)
                have hnet : ¬ce.type = q.type := by
                  rw [hct, hqt]
                  exact hty_ne
                have hts : q.type.isSome = true := by rw [hqt]; rfl
                simp [prefixMatch, hex, hts, hnet]
              cases hT : Experiment.getType ex (EType.value t) with
              | none =>
                unfold Experiment.getType at hT
                exact (flatMap_filter_of_find?_none hpassT hT).symm
              | some ty =>
                unfold Experiment.getType at hT
                have htym : ty ∈ ex.types := List.mem_of_find?_eq_some hT
                have htyn : ty.type = t.value := by simpa using List.find?_some hT
                have htenum : ty.enum = some t := (etype_parse_eq_some ty.type t).2 htyn
                rw [flatMap_filter_of_find?_some hndT hpassT hT]
                dsimp only
                have hndPh := hinT ty htym
                cases hqph : q.phase with
                | none =>
                  dsimp only
                  have hself : (entriesOfType proj.project ex.experiment ty).filter
                      (prefixMatch q) = entriesOfType proj.project ex.experiment ty := by
                    rw [List.filter_eq_self]
                    intro ce hce
                    obtain ⟨hcp, hcx, hct⟩ := fields_of_mem_entriesOfType hce
                    simp [prefixMatch, hcp, hcx, hct, hqp2, hqx2, hqt, hqph, htenum]
                  rw [hself]
                  simp only [hqp2, hqx2, hqt]
                  rw [← htenum]
                  rfl
                | some ph =>
                  dsimp only
                  have hTY : entriesOfType proj.project ex.experiment ty =
                      ty.phases.map (entryOfPhase proj.project ex.experiment ty.enum) := rfl
                  rw [hTY, List.filter_map]
                  have hcongr : ty.phases.filter
                      ((prefixMatch q) ∘ (entryOfPhase proj.project ex.experiment ty.enum)) =
                      ty.phases.filter (fun phn => decide (phn.phase = ph.value)) := by
                    apply List.filter_congr
                    intro phn _
                    have hex2 : pyTruthy (some ex.experiment) = true := by
                      rw [← hqx2]
                      exact hex
                    simp [Function.comp, prefixMatch, entryOfPhase, hqp2, hqx2, hqt, hqph,
                      htenum, hex, hex2, Phase.enum, ephase_parse_eq_some]
                  rw [hcongr]
                  cases hPh : TypeNode.getPhase ty (EPhase.value ph) with
                  | none =>
                    unfold TypeNode.getPhase at hPh
                    have hnil : ty.phases.filter (fun phn => decide (phn.phase = ph.value)) =
                        [] := by
                      rw [List.filter_eq_nil_iff]
                      intro b hb
                      simpa using List.find?_eq_none.1 hPh b hb
                    rw [hnil, List.map_nil]
                  | some phn =>
                    unfold TypeNode.getPhase at hPh
                    dsimp only
                    rw [filter_key_of_find?_some hndPh hPh, List.map_cons, List.map_nil]
                    have hphn : phn.phase = ph.value := by simpa using List.find?_some hPh
                    have hpenum : phn.enum = some ph := (ephase_parse_eq_some phn.phase ph).2 hphn
                    simp only [entryOfPhase, hqp2, hqx2, hqt, hqph, htenum, hpenum]
        · rw [if_neg hex]
          have hself : (entriesOfProject proj).filter (prefixMatch q) =
              entriesOfProject proj := by
            rw [List.filter_eq_self]
            intro ce hce
            have hcp := project_of_mem_entriesOfProject hce
            simp [prefixMatch, hcp, hqp2, hex]
          rw [hself]
          simp only [hqp2]
          rfl
    · rw [if_neg hpj, if_neg hpj]
      rfl

/-- C2: on a catalog with unique names at every level, `find_data` resolves
every sequence of query entries by specificity — identifier equality when the
identifier is set, otherwise descent from the project as far as levels are
specified with unspecified levels as wildcards, otherwise the whole tree — and
returns the union over the queries deduplicated by entry path identity in
first-seen order, exactly the spec-side `findEntries`. -/
theorem C2_find_entries_by_specificity (d : Data) (qs : List Entry)
    (hn : namesUnique d) : findData d qs = findEntriesSpec d qs := by
  unfold findData findEntriesSpec dedupFirstSeen
  have hfun : (fun (acc : List Entry) (q : Entry) => ordExtend acc (findOne d q)) =
      fun acc q => ordExtend acc (findOneSpec d q) := by
    funext acc q
    rw [findOne_eq_findOneSpec d q hn]
  rw [hfun, foldl_ordExtend_flatMap (findOneSpec d) qs []]

/-- Witness for C2 at a concrete catalog and query sequence (an identifier
query, a project wildcard query and an unconstrained query, with overlapping
results that the ordered set deduplicates). -/
theorem C2_find_entries_witness :
    namesUnique [⟨str "p", [⟨str "x", [⟨str "rna", [⟨str "raw", some (str "SRX1"), []⟩]⟩,
        ⟨str "chip", [⟨str "raw", none, []⟩]⟩]⟩]⟩] ∧
    findData [⟨str "p", [⟨str "x", [⟨str "rna", [⟨str "raw", some (str "SRX1"), []⟩]⟩,
        ⟨str "chip", [⟨str "raw", none, []⟩]⟩]⟩]⟩]
      [⟨none, none, none, none, some (str "SRX1"), []⟩,
        ⟨some (str "p"), none, none, none, none, []⟩,
        ⟨none, none, none, none, none, []⟩] =
    findEntriesSpec [⟨str "p", [⟨str "x", [⟨str "rna", [⟨str "raw", some (str "SRX1"), []⟩]⟩,
        ⟨str "chip", [⟨str "raw", none, []⟩]⟩]⟩]⟩]
      [⟨none, none, none, none, some (str "SRX1"), []⟩,
        ⟨some (str "p"), none, none, none, none, []⟩,
        ⟨none, none, none, none, none, []⟩] :=
  ⟨by decide, C2_find_entries_by_specificity
    [⟨str "p", [⟨str "x", [⟨str "rna", [⟨str "raw", some (str "SRX1"), []⟩]⟩,
      ⟨str "chip", [⟨str "raw", none, []⟩]⟩]⟩]⟩]
    [⟨none, none, none, none, some (str "SRX1"), []⟩,
      ⟨some (str "p"), none, none, none, none, []⟩,
      ⟨none, none, none, none, none, []⟩] (by decide)⟩

/-- C1: `remove_data` is the exact inverse of `add_data`: (1) adding any set of
complete entries with distinct paths to an empty catalog and then removing that
same set yields the empty catalog; (2) a successful removal cascade-prunes: when
the removed phase was the last one under its type node, that type node is absent
afterwards, and transitively the experiment node (when that type was its last)
and the project node (when that experiment was its last) are absent; (3)
removing a complete entry whose full path does not resolve fails with the
missing-entry error. -/
theorem C1_remove_inverse_of_add :
    (∀ (es : List Entry) (d : Data) (n : Nat),
        (∀ e ∈ es, e.complete) → (es.map Entry.key).Nodup →
        addData [] es = .ok d n → removeData d es = .ok [] es.length) ∧
    (∀ (d : Data) (e : Entry) (d1 : Data) (p x : List Char) (t : EType) (ph : EPhase),
        wfData d → e.project = some p → e.experiment = some x → e.type = some t →
        e.phase = some ph → removeOne d e = .ok d1 →
        (∀ ty, findTypeNode d p x t.value = some ty →
            ty.phases.map Phase.phase = [ph.value] →
            findTypeNode d1 p x t.value = none) ∧
        (∀ ex2, findExperimentNode d p x = some ex2 →
            ex2.types.map (fun ty => (ty.type, ty.phases.map Phase.phase)) =
              [(t.value, [ph.value])] → findExperimentNode d1 p x = none) ∧
        (∀ pr2, d.getProject p = some pr2 →
            pr2.experiments.map (fun ex => (ex.experiment,
              ex.types.map fun ty => (ty.type, ty.phases.map Phase.phase))) =
              [(x, [(t.value, [ph.value])])] → d1.getProject p = none)) ∧
    (∀ (d : Data) (e : Entry) (p x : List Char) (t : EType) (ph : EPhase),
        e.project = some p → e.experiment = some x → e.type = some t →
        e.phase = some ph → findPhaseNode d e.key = none →
        removeData d [e] = .missing d e) := by
  refine ⟨?_, ?_, ?_⟩
  · intro es d n hc hnd hadd
    have hwnil : wfData ([] : Data) := by decide
    obtain ⟨d', hok', hw', hperm'⟩ := addData_all_ok es [] hwnil hc hnd (by simp [keyList])
    rw [hok'] at hadd
    injection hadd with hd hn
    subst hd
    have hperm2 : List.Perm (keyList d') (es.map Entry.key) := by
      simpa [keyList] using hperm'
    exact removeData_all_ok es d' hw' hc hnd hperm2
  · intro d e d1 p x t ph hw hep hex het heph hok
    exact removeOne_prunes d e d1 p x t ph hw hep hex het heph hok
  · intro d e p x t ph hep hex het heph hnone
    exact removeData_cons_missing d e []
      (removeOne_missing d e p x t ph hep hex het heph hnone)

/-- Witness for C1 at concrete inputs: two entries added to the empty catalog
and removed again leave the empty catalog; removing the only entry of a
one-entry catalog prunes the type, experiment and project nodes; removing an
entry on an unresolved path reports it missing. -/
theorem C1_remove_inverse_witness :
    (∀ e ∈ ([⟨some (str "p"), some (str "x"), some .rna, some .raw, none, []⟩,
        ⟨some (str "p"), some (str "x"), some .chip, some .raw, none, []⟩] :
        List Entry), e.complete) ∧
    addData [] [⟨some (str "p"), some (str "x"), some .rna, some .raw, none, []⟩,
        ⟨some (str "p"), some (str "x"), some .chip, some .raw, none, []⟩] =
      .ok [⟨str "p", [⟨str "x", [⟨str "rna", [⟨str "raw", none, []⟩]⟩,
        ⟨str "chip", [⟨str "raw", none, []⟩]⟩]⟩]⟩] 2 ∧
    removeData [⟨str "p", [⟨str "x", [⟨str "rna", [⟨str "raw", none, []⟩]⟩,
        ⟨str "chip", [⟨str "raw", none, []⟩]⟩]⟩]⟩]
      [⟨some (str "p"), some (str "x"), some .rna, some .raw, none, []⟩,
        ⟨some (str "p"), some (str "x"), some .chip, some .raw, none, []⟩] = .ok [] 2 ∧
    removeOne [⟨str "p", [⟨str "x", [⟨str "rna", [⟨str "raw", none, []⟩]⟩]⟩]⟩]
      ⟨some (str "p"), some (str "x"), some .rna, some .raw, none, []⟩ = .ok [] ∧
    findTypeNode ([] : Data) (str "p") (str "x") (str "rna") = none ∧
    findExperimentNode ([] : Data) (str "p") (str "x") = none ∧
    Data.getProject ([] : Data) (str "p") = none ∧
    removeData [⟨str "p", [⟨str "x", [⟨str "rna", [⟨str "raw", none, []⟩]⟩]⟩]⟩]
      [⟨some (str "p"), some (str "x"), some .chip, some .raw, none, []⟩] =
      .missing [⟨str "p", [⟨str "x", [⟨str "rna", [⟨str "raw", none, []⟩]⟩]⟩]⟩]
        ⟨some (str "p"), some (str "x"), some .chip, some .raw, none, []⟩ := by
  refine ⟨by decide, by decide, ?_, rfl, ?_, ?_, ?_, ?_⟩
  · exact C1_remove_inverse_of_add.1
      [⟨some (str "p"), some (str "x"), some .rna, some .raw, none, []⟩,
        ⟨some (str "p"), some (str "x"), some .chip, some .raw, none, []⟩]
      [⟨str "p", [⟨str "x", [⟨str "rna", [⟨str "raw", none, []⟩]⟩,
        ⟨str "chip", [⟨str "raw", none, []⟩]⟩]⟩]⟩] 2
      (by decide) (by decide) (by decide)
  · exact (C1_remove_inverse_of_add.2.1
      [⟨str "p", [⟨str "x", [⟨str "rna", [⟨str "raw", none, []⟩]⟩]⟩]⟩]
      ⟨some (str "p"), some (str "x"), some .rna, some .raw, none, []⟩ []
      (str "p") (str "x") .rna .raw (by decide) rfl rfl rfl rfl rfl).1
      ⟨str "rna", [⟨str "raw", none, []⟩]⟩ (by decide) (by decide)
  · exact (C1_remove_inverse_of_add.2.1
      [⟨str "p", [⟨str "x", [⟨str "rna", [⟨str "raw", none, []⟩]⟩]⟩]⟩]
      ⟨some (str "p"), some (str "x"), some .rna, some .raw, none, []⟩ []
      (str "p") (str "x") .rna .raw (by decide) rfl rfl rfl rfl rfl).2.1
      ⟨str "x", [⟨str "rna", [⟨str "raw", none, []⟩]⟩]⟩ (by decide) (by decide)
  · exact (C1_remove_inverse_of_add.2.1
      [⟨str "p", [⟨str "x", [⟨str "rna", [⟨str "raw", none, []⟩]⟩]⟩]⟩]
      ⟨some (str "p"), some (str "x"), some .rna, some .raw, none, []⟩ []
      (str "p") (str "x") .rna .raw (by decide) rfl rfl rfl rfl rfl).2.2
      ⟨str "p", [⟨str "x", [⟨str "rna", [⟨str "raw", none, []⟩]⟩]⟩]⟩ (by decide) (by decide)
  · exact C1_remove_inverse_of_add.2.2
      [⟨str "p", [⟨str "x", [⟨str "rna", [⟨str "raw", none, []⟩]⟩]⟩]⟩]
      ⟨some (str "p"), some (str "x"), some .chip, some .raw, none, []⟩
      (str "p") (str "x") .chip .raw rfl rfl rfl rfl (by decide)

end Noah
